import Mathlib

/-!
Verification development for the ConceptNet path-finding program (`main.py`).

The program is shallowly embedded: the in-memory JSON cache dictionary becomes
an insertion-ordered association list, the `requests` session becomes a
function from node identifiers to abstract responses, `time.monotonic` /
`time.sleep` become explicit rational clock observations, and the
bidirectional-BFS loop of `find_path` becomes a fuel-indexed step function
over an explicit search state.  All definitions are executable.
-/

namespace ConceptNet

/-- A ConceptNet node identifier (an opaque string such as "/c/en/dog"). -/
abbrev Node := String

/-- Direction marker attached to an edge, the two literal tokens the code
writes into edge triples: `"-->"` (the queried node is the edge's start
endpoint) and `"<--"` (the queried node is the edge's end endpoint). -/
inductive Direction where
  | outgoing
  | incoming
deriving DecidableEq, Repr

/-- The arrow flip performed by `reconstruct_and_print_path`:
`flipped_dir = "<--" if dir_from_end == "-->" else "-->"`. -/
def flipDir : Direction → Direction
  | .outgoing => .incoming
  | .incoming => .outgoing

/-- One edge triple `(rel_label, neighbor_node, direction)` as appended to
`edges` in `get_edges`. -/
structure Edge where
  rel : String
  neighbor : Node
  dir : Direction
deriving DecidableEq, Repr

/-- A path, as threaded through `find_path`: the list of edge triples taken
from some origin node. -/
abbrev Path := List Edge

/-- One edge object of the decoded JSON payload, as accessed by `get_edges`:
`edge['rel'].get('label', 'relatedTo')`, `edge['start'].get('@id')`,
`edge['end'].get('@id')`.  The outer `Option` on `relLabel` records whether
the `'rel'` key is present at all (its absence makes the subscript raise
`KeyError`); the inner `Option` records whether `'label'` is present (its
absence is defaulted to `"relatedTo"`).  `startId`/`endId` record whether the
`'start'`/`'end'` keys are present (absence raises `KeyError`); when present
they carry the endpoint's `'@id'`, which the remote contract always provides. -/
structure RawEdge where
  relLabel : Option (Option String)
  startId : Option Node
  endId : Option Node
deriving DecidableEq, Repr

/-- Outcome of one `session.get` call as seen by `get_edges`:
`failure` covers every `requests.exceptions.RequestException`
(connection error, timeout, non-success status via `raise_for_status`) —
exactly what the `except` clause catches; `success` is a decoded JSON
payload carrying the (possibly empty) `edges` array. -/
inductive Response where
  | failure
  | success (raws : List RawEdge)

/-- The one kind of Python exception `get_edges` can raise past its
`except` clause: a `KeyError` from subscripting a malformed edge object. -/
inductive PyErr where
  | keyError
deriving DecidableEq, Repr

/-- Processing of one edge object inside the `for edge in data.get('edges', [])`
loop of `get_edges`.  Returns `none` for the defensive case where the queried
node is neither endpoint (the edge is dropped), and raises `KeyError` when one
of the `'rel'`/`'start'`/`'end'` keys is missing. -/
def parseEdge (n : Node) (e : RawEdge) : Except PyErr (Option Edge) :=
  match e.relLabel with
  | none => .error .keyError
  | some relOpt =>
    match e.startId with
    | none => .error .keyError
    | some s =>
      match e.endId with
      | none => .error .keyError
      | some t =>
        let rel := relOpt.getD "relatedTo"
        if s = n then .ok (some ⟨rel, t, .outgoing⟩)
        else if t = n then .ok (some ⟨rel, s, .incoming⟩)
        else .ok none

/-- The whole edge-decoding loop of `get_edges`, in payload order; the first
malformed edge object raises. -/
def parseEdges (n : Node) : List RawEdge → Except PyErr (List Edge)
  | [] => .ok []
  | e :: es =>
    match parseEdge n e with
    | .error err => .error err
    | .ok h =>
      match parseEdges n es with
      | .error err => .error err
      | .ok t => .ok (match h with | some ed => ed :: t | none => t)

/-- The in-memory cache dictionary `self.node_cache`, as an insertion-ordered
association list (Python dicts preserve insertion order). -/
abbrev Cache := List (Node × List Edge)

/-- Dictionary membership / subscript read: first (unique) binding of a key. -/
def alook (k : Node) : List (Node × α) → Option α
  | [] => none
  | (k', v) :: rest => if k' = k then some v else alook k rest

/-- Dictionary subscript assignment `d[k] = v`: overwrite in place if the key
is present, append otherwise. -/
def dinsert (k : Node) (v : α) : List (Node × α) → List (Node × α)
  | [] => [(k, v)]
  | (k', v') :: rest =>
    if k' = k then (k', v) :: rest else (k', v') :: dinsert k v rest

/-- `ConceptNetPathfinder.get_edges`, the cache's `get_or_fetch` operation.
Returns the result of the call (a list of edges, or the uncaught `KeyError`),
the cache dictionary afterwards, and whether a network request was made
(i.e. whether `rate_limiter.wait()` and `session.get` ran).

Faithful to the source, including the placement of the store statement
`self.node_cache[node_uri] = edges` *outside* the `try`/`except`: after a
caught `RequestException` the still-empty `edges` list *is* stored under
`node_uri`, while an uncaught `KeyError` skips the store. -/
def get_edges (resp : Node → Response) (cache : Cache) (node_uri : Node) :
    Except PyErr (List Edge) × Cache × Bool :=
  match alook node_uri cache with
  | some es => (.ok es, cache, false)
  | none =>
    match resp node_uri with
    | .failure => (.ok [], dinsert node_uri [] cache, true)
    | .success raws =>
      match parseEdges node_uri raws with
      | .error e => (.error e, cache, true)
      | .ok es => (.ok es, dinsert node_uri es cache, true)

/-! ## RateLimiter

The lock makes each `wait()` call one atomic check-and-update of
`last_request_time`, so consecutive permitted requests are modeled as
sequential state transitions.  Clock readings (`time.monotonic()`) are
rationals supplied by the environment; `time.sleep(s)` is reflected by the
hypothesis that the reading taken after the sleep has advanced by at least
the requested amount. -/

structure RateLimiter where
  delay : ℚ
  last_request_time : ℚ

/-- `RateLimiter.__init__`: `self.delay = 1.0 / requests_per_second`,
`self.last_request_time = 0`. -/
def RateLimiter.init (requests_per_second : ℚ) : RateLimiter :=
  { delay := 1 / requests_per_second, last_request_time := 0 }

/-- The amount `wait()` passes to `time.sleep` given the first clock reading
`now`: `delay - elapsed` when `elapsed < delay`, otherwise no sleep. -/
def RateLimiter.sleepTime (rl : RateLimiter) (now : ℚ) : ℚ :=
  if now - rl.last_request_time < rl.delay then
    rl.delay - (now - rl.last_request_time)
  else 0

/-- The state update of `wait()`: `self.last_request_time = time.monotonic()`,
where `now2` is that second clock reading (taken after the conditional sleep). -/
def RateLimiter.wait (rl : RateLimiter) (now2 : ℚ) : RateLimiter :=
  { rl with last_request_time := now2 }

/-! ## Path reconstruction -/

/-- One printed line of `reconstruct_and_print_path`: the relation label, the
arrow direction actually printed, and the node printed after the arrow. -/
structure DispStep where
  rel : String
  dir : Direction
  node : Node
deriving DecidableEq, Repr

/-- `ConceptNetPathfinder.reconstruct_and_print_path`, as the data it prints:
the start node printed first, then one display step per printed line.
The forward half-path is emitted as recorded; for the backward half-path the
code builds `path_bwd_nodes = [end_node] + [p[1] for p in path_bwd]` reversed,
reverses the step list, and prints each step with its direction flipped and
the node `path_bwd_nodes[i + 1]`. -/
def reconstruct_and_print_path (start_node end_node : Node) (path_fwd path_bwd : Path) :
    Node × List DispStep :=
  let fwdSteps := path_fwd.map (fun e => DispStep.mk e.rel e.dir e.neighbor)
  let bwdNodes := (end_node :: path_bwd.map Edge.neighbor).reverse
  let revRels := path_bwd.reverse
  let bwdSteps :=
    List.zipWith (fun e n => DispStep.mk e.rel (flipDir e.dir) n) revRels (bwdNodes.drop 1)
  (start_node, fwdSteps ++ bwdSteps)

/-- The chain of nodes a printed reconstruction passes through, in print
order: the start node, then the node of every printed step. -/
def nodeChain (r : Node × List DispStep) : List Node :=
  r.1 :: r.2.map DispStep.node

/-! ## The bidirectional search -/

/-- The mutable state of one `find_path` invocation: both FIFO queues
(`collections.deque`, head = next to pop), both visited-path dictionaries,
the cache dictionary, and the `nodes_processed` counter.  `fetches`,
`dequeues_fwd` and `dequeues_bwd` are observation counters for events of the
run (network requests made, pops from each deque); they are not variables of
the source but count its observable actions. -/
structure SState where
  queue_fwd : List (Node × Path)
  queue_bwd : List (Node × Path)
  paths_fwd : List (Node × Path)
  paths_bwd : List (Node × Path)
  node_cache : Cache
  nodes_processed : Nat
  fetches : Nat
  dequeues_fwd : Nat
  dequeues_bwd : Nat
deriving DecidableEq, Repr

/-- Result of scanning the edge list of a dequeued node, mirroring the
`for rel, neighbor, direction in edges` loop: either an intersection was
found (`met`, with the extended own half-path and the other frontier's
recorded half-path), or the scan ran through, extending the own visited
dictionary and queue. -/
inductive ExpandRes where
  | met (selfPath otherPath : Path)
  | noMeet (visited queue : List (Node × Path))
deriving DecidableEq, Repr

/-- The edge-scanning loop of one expansion step.  `other` is the opposite
frontier's visited dictionary (checked first: intersection), `vis`/`q` are
the own visited dictionary and queue being extended.  A neighbor already
visited in the own direction is skipped; a fresh neighbor is recorded and
enqueued with the extended path. -/
def expand (other : List (Node × Path)) (path : Path) :
    List Edge → List (Node × Path) → List (Node × Path) → ExpandRes
  | [], vis, q => .noMeet vis q
  | e :: es, vis, q =>
    match alook e.neighbor other with
    | some pOther => .met (path ++ [e]) pOther
    | none =>
      match alook e.neighbor vis with
      | some _ => expand other path es vis q
      | none =>
        expand other path es
          (dinsert e.neighbor (path ++ [e]) vis) (q ++ [(e.neighbor, path ++ [e])])

/-- Result of one block (forward or backward) of the loop body:
`found` terminates the search with the two half-paths handed to
`reconstruct_and_print_path` (forward first); `failed` is an uncaught Python
exception; `pruned` is the `continue` taken when the dequeued path is too
long (it skips the rest of the loop body); `proceed` falls through to
whatever comes next. -/
inductive IterRes where
  | found (pf pb : Path) (s : SState)
  | failed (e : PyErr) (s : SState)
  | pruned (s : SState)
  | proceed (s : SState)
deriving Repr

/-- Popping the forward deque: the dequeued entry is gone, `nodes_processed`
is incremented (the increment happens before the pruning test in the code),
and the forward pop counter advances. -/
def popF (s : SState) (qf : List (Node × Path)) : SState :=
  { s with
    queue_fwd := qf
    nodes_processed := s.nodes_processed + 1
    dequeues_fwd := s.dequeues_fwd + 1 }

/-- Popping the backward deque. -/
def popB (s : SState) (qb : List (Node × Path)) : SState :=
  { s with
    queue_bwd := qb
    nodes_processed := s.nodes_processed + 1
    dequeues_bwd := s.dequeues_bwd + 1 }

/-- Recording the cache returned by `get_edges` and counting the network
request if one was made. -/
def fetched (s : SState) (c' : Cache) (f : Bool) : SState :=
  { s with
    node_cache := c'
    fetches := s.fetches + (if f then 1 else 0) }

/-- Installing the forward visited map and queue extended by an expansion. -/
def setF (s : SState) (vis q : List (Node × Path)) : SState :=
  { s with paths_fwd := vis, queue_fwd := q }

/-- Installing the backward visited map and queue extended by an expansion. -/
def setB (s : SState) (vis q : List (Node × Path)) : SState :=
  { s with paths_bwd := vis, queue_bwd := q }

/-- The `--- 1. Expand Forward Layer ---` block of the loop body. -/
def iterF (resp : Node → Response) (s : SState) : IterRes :=
  match s.queue_fwd with
  | [] => .proceed s
  | (current_fwd, path_fwd) :: qf =>
    if path_fwd.length > 10 then .pruned (popF s qf)
    else
      match get_edges resp s.node_cache current_fwd with
      | (res, c', f) =>
        match res with
        | .error e => .failed e (fetched (popF s qf) c' f)
        | .ok edges =>
          match expand s.paths_bwd path_fwd edges s.paths_fwd qf with
          | .met newSelf pOther => .found newSelf pOther (fetched (popF s qf) c' f)
          | .noMeet vis q => .proceed (setF (fetched (popF s qf) c' f) vis q)

/-- The `--- 2. Expand Backward Layer ---` block of the loop body.  On an
intersection the code calls `reconstruct_and_print_path(start, end,
paths_fwd[neighbor], new_path_bwd)`, so the *other* frontier's path comes
first in `found`. -/
def iterB (resp : Node → Response) (s : SState) : IterRes :=
  match s.queue_bwd with
  | [] => .proceed s
  | (current_bwd, path_bwd) :: qb =>
    if path_bwd.length > 10 then .pruned (popB s qb)
    else
      match get_edges resp s.node_cache current_bwd with
      | (res, c', f) =>
        match res with
        | .error e => .failed e (fetched (popB s qb) c' f)
        | .ok edges =>
          match expand s.paths_fwd path_bwd edges s.paths_bwd qb with
          | .met newSelf pOther => .found pOther newSelf (fetched (popB s qb) c' f)
          | .noMeet vis q => .proceed (setB (fetched (popB s qb) c' f) vis q)

/-- One full iteration of the `while queue_fwd and queue_bwd` body: the
forward block, then — unless the forward block returned, raised, or took its
pruning `continue` — the backward block.  The backward block's own pruning
`continue` coincides with falling off the end of the body. -/
def iter (resp : Node → Response) (s : SState) : IterRes :=
  match iterF resp s with
  | .found pf pb s' => .found pf pb s'
  | .failed e s' => .failed e s'
  | .pruned s' => .proceed s'
  | .proceed s' =>
    match iterB resp s' with
    | .found pf pb s'' => .found pf pb s''
    | .failed e s'' => .failed e s''
    | .pruned s'' => .proceed s''
    | .proceed s'' => .proceed s''

/-- How a `find_path` run ends. `sameNode` is the immediate
"Start and end nodes are the same." return; `found` carries the two
half-paths handed to the reconstructor; `notFound` is the
"Path Not Found" exit after a queue emptied; `error` is an uncaught Python
exception escaping the loop; `fuelOut` is the artifact of the fuel bound
(never reached when the fuel exceeds the measure of the state space). -/
inductive SearchOutcome where
  | sameNode
  | found (pf pb : Path)
  | notFound
  | error (e : PyErr)
  | fuelOut
deriving DecidableEq, Repr

/-- The `while queue_fwd and queue_bwd` loop, fuel-indexed. -/
def loop (resp : Node → Response) : Nat → SState → SearchOutcome × SState
  | 0, s => (.fuelOut, s)
  | fuel + 1, s =>
    if s.queue_fwd = [] ∨ s.queue_bwd = [] then (.notFound, s)
    else
      match iter resp s with
      | .found pf pb s' => (.found pf pb, s')
      | .failed e s' => (.error e, s')
      | .pruned s' => loop resp fuel s'
      | .proceed s' => loop resp fuel s'

/-- The state set up by `find_path` just before the loop: each queue holds its
origin with the empty path, each visited dictionary maps its origin to the
empty path. -/
def initState (cache0 : Cache) (start_node end_node : Node) : SState :=
  { queue_fwd := [(start_node, [])]
    queue_bwd := [(end_node, [])]
    paths_fwd := [(start_node, [])]
    paths_bwd := [(end_node, [])]
    node_cache := cache0
    nodes_processed := 0
    fetches := 0
    dequeues_fwd := 0
    dequeues_bwd := 0 }

/-- The state `find_path` never builds when it takes the
`start_node == end_node` early return. -/
def degenerateState (cache0 : Cache) : SState :=
  { queue_fwd := [], queue_bwd := [], paths_fwd := [], paths_bwd := []
    node_cache := cache0, nodes_processed := 0, fetches := 0
    dequeues_fwd := 0, dequeues_bwd := 0 }

/-- What a `find_path` call leaves behind: its outcome, the final state, and
how many times `save_cache` ran. -/
structure FPResult where
  outcome : SearchOutcome
  final : SState
  saves : Nat
deriving Repr

/-- `ConceptNetPathfinder.find_path`.  The `start_node == end_node` early
return happens *before* the `try`, so it performs no save; every other exit
(found, not found, uncaught exception) passes through the `finally` clause
and saves the cache exactly once. -/
def find_path (resp : Node → Response) (cache0 : Cache) (fuel : Nat)
    (start_node end_node : Node) : FPResult :=
  if start_node = end_node then
    { outcome := .sameNode, final := degenerateState cache0, saves := 0 }
  else
    let r := loop resp fuel (initState cache0 start_node end_node)
    { outcome := r.1, final := r.2, saves := 1 }

/-- One guarded loop iteration as a total state transformer, for inspecting
the run at iteration granularity: when the loop guard fails or the iteration
terminates the search (found / exception), the state is frozen. -/
def stepGuard (resp : Node → Response) (s : SState) : SState :=
  if s.queue_fwd = [] ∨ s.queue_bwd = [] then s
  else
    match iter resp s with
    | .found _ _ _ => s
    | .failed _ _ => s
    | .pruned s' => s'
    | .proceed s' => s'

/-- The state after `n` guarded loop iterations. -/
def runIters (resp : Node → Response) : Nat → SState → SState
  | 0, s => s
  | n + 1, s => runIters resp n (stepGuard resp s)

/-- The edge count of the path attached to the next entry the forward queue
would pop, if any. -/
def headPathLen (s : SState) : Option Nat :=
  match s.queue_fwd with
  | [] => none
  | (_, p) :: _ => some p.length

/-! ## The remote graph service

Modelled from the spec: the remote ConceptNet service itself is an external
collaborator, not part of the repository.  Per the spec's remote graph query
contract it is a read-only lookup over a fixed set of edge descriptors, each
carrying a relation label, a start endpoint identifier and an end endpoint
identifier; querying a node surfaces the edge descriptors as JSON edge
objects, and `get_edges` itself keeps exactly those having the queried node
as an endpoint (dropping the rest defensively). -/

/-- One edge descriptor of the remote graph: relation label, start endpoint,
end endpoint. -/
structure EdgeRecord where
  rel : String
  startId : Node
  endId : Node
deriving DecidableEq, Repr

/-- A finite remote graph: its list of edge descriptors. -/
abbrev Db := List EdgeRecord

/-- A well-formed JSON edge object for an edge descriptor: all three keys
present, the endpoint identifiers filled in. -/
def rawOf (r : EdgeRecord) : RawEdge :=
  { relLabel := some (some r.rel), startId := some r.startId, endId := some r.endId }

/-- The remote service for a database: every query succeeds and surfaces the
edge descriptors (the client-side endpoint comparison in `get_edges` then
keeps the incident ones). -/
def respOfDb (db : Db) : Node → Response :=
  fun _ => .success (db.map rawOf)

/-- The edge list `get_edges` computes for a node of a database: for each
descriptor, outgoing to the end endpoint if the node is the start endpoint,
incoming from the start endpoint if the node is the end endpoint, dropped
otherwise. -/
def serve (db : Db) (n : Node) : List Edge :=
  db.filterMap (fun r =>
    if r.startId = n then some ⟨r.rel, r.endId, .outgoing⟩
    else if r.endId = n then some ⟨r.rel, r.startId, .incoming⟩
    else none)

/-- The neighbor set of a node of a database, as `get_edges` exposes it. -/
def nbrs (db : Db) (n : Node) : List Node :=
  (serve db n).map Edge.neighbor

/-- Every endpoint identifier occurring in a database. -/
def dbNodes : Db → List Node
  | [] => []
  | r :: rs => r.startId :: r.endId :: dbNodes rs

/-- A walk of a given edge count between two nodes, along the neighbor
relation the engine traverses. -/
inductive Walk (db : Db) : Node → Node → Nat → Prop
  | nil (u : Node) : Walk db u u 0
  | cons {u v w : Node} {k : Nat} : v ∈ nbrs db u → Walk db v w k → Walk db u w (k + 1)

/-- A recorded half-path is an actual chain of served edges from its origin
to its endpoint. -/
inductive PathFrom (db : Db) : Node → Path → Node → Prop
  | nil (u : Node) : PathFrom db u [] u
  | snoc {u v : Node} {p : Path} {e : Edge} :
      PathFrom db u p v → e ∈ serve db v → PathFrom db u (p ++ [e]) e.neighbor

/-- A cache is consistent with a database when every entry it holds is
exactly what the service would serve. -/
def cacheConsistent (db : Db) (c : Cache) : Prop :=
  ∀ n es, alook n c = some es → es = serve db n

/-- The outcome reports a path. -/
def isFound : SearchOutcome → Bool
  | .found _ _ => true
  | _ => false

/-- Node universe of one search over a database: both origins and every
endpoint identifier of the database.  Every node the search ever visits or
enqueues lies in it. -/
def universeOf (db : Db) (start_node end_node : Node) : List Node :=
  start_node :: end_node :: dbNodes db

/-- Count of universe members not yet bound in a visited dictionary. -/
def countAbsent (u : List Node) (vis : List (Node × Path)) : Nat :=
  (u.filter (fun n => (alook n vis).isNone)).length

/-- Termination measure of a search state: each loop iteration strictly
decreases it (a pop always happens; every push is paired with binding a
previously absent universe node). -/
def meas (u : List Node) (s : SState) : Nat :=
  2 * countAbsent u s.paths_fwd + 2 * countAbsent u s.paths_bwd
    + s.queue_fwd.length + s.queue_bwd.length

/-- Fuel sufficient to run any search over a database to its natural end. -/
def fuelBound (db : Db) : Nat :=
  8 * db.length + 16

/-- A JSON edge object with all three keys present. -/
def wfRaw (e : RawEdge) : Bool :=
  e.relLabel.isSome && e.startId.isSome && e.endId.isSome

/-- A response whose decoding cannot raise: a transport failure (caught), or
a success whose edge objects all carry the three expected keys. -/
def wfResp : Response → Bool
  | .failure => true
  | .success raws => raws.all wfRaw

/-! ## Dictionary lemmas -/

theorem alook_dinsert (k m : Node) (v : α) (c : List (Node × α)) :
    alook m (dinsert k v c) = if k = m then some v else alook m c := by
  induction c with
  | nil => simp [alook, dinsert]
  | cons hd tl ih =>
    obtain ⟨k', v'⟩ := hd
    by_cases hk : k' = k
    · subst hk
      by_cases hm : k' = m <;> simp [alook, dinsert, hm]
    · by_cases hm : k' = m
      · subst hm
        have hk' : ¬(k = k') := fun h => hk h.symm
        simp [alook, dinsert, hk, hk']
      · simp [alook, dinsert, hk, hm, ih]

theorem dinsert_of_absent (k : Node) (v : α) (c : List (Node × α))
    (h : alook k c = none) : dinsert k v c = c ++ [(k, v)] := by
  induction c with
  | nil => simp [dinsert]
  | cons hd tl ih =>
    obtain ⟨k', v'⟩ := hd
    by_cases hk : k' = k
    · simp [alook, hk] at h
    · simp [alook, hk] at h
      simp [dinsert, hk, ih h]

theorem alook_append_of_some (k : Node) (v : α) (c c' : List (Node × α))
    (h : alook k c = some v) : alook k (c ++ c') = some v := by
  induction c with
  | nil => simp [alook] at h
  | cons hd tl ih =>
    obtain ⟨k', v'⟩ := hd
    by_cases hk : k' = k <;> simp_all [alook]

theorem alook_singleton (k m : Node) (v : α) :
    alook m [(k, v)] = if k = m then some v else none := by
  simp [alook]

/-! ## Rate limiter -/

theorem wait_interval (rl : RateLimiter) (now1 now2 : ℚ)
    (hsleep : now1 + rl.sleepTime now1 ≤ now2) :
    rl.delay ≤ (rl.wait now2).last_request_time - rl.last_request_time := by
  unfold RateLimiter.sleepTime at hsleep
  unfold RateLimiter.wait
  split at hsleep <;> simp only <;> linarith

/-! ## Well-formed responses never raise -/

theorem parseEdges_ok_of_wf (n : Node) (raws : List RawEdge)
    (h : raws.all wfRaw = true) : ∃ es, parseEdges n raws = .ok es := by
  induction raws with
  | nil => exact ⟨[], rfl⟩
  | cons e es ih =>
    simp only [List.all_cons, Bool.and_eq_true] at h
    obtain ⟨he, hes⟩ := h
    obtain ⟨t, ht⟩ := ih hes
    unfold wfRaw at he
    simp only [Bool.and_eq_true, Option.isSome_iff_exists] at he
    obtain ⟨⟨⟨rl, hrl⟩, ⟨si, hsi⟩⟩, ⟨ei, hei⟩⟩ := he
    unfold parseEdges parseEdge
    rw [hrl, hsi, hei, ht]
    by_cases h1 : si = n
    · simp only [if_pos h1]
      exact ⟨_, rfl⟩
    · by_cases h2 : ei = n
      · simp only [if_neg h1, if_pos h2]
        exact ⟨_, rfl⟩
      · simp only [if_neg h1, if_neg h2]
        exact ⟨_, rfl⟩

theorem get_edges_ok_of_wf (resp : Node → Response)
    (h : ∀ n, wfResp (resp n) = true) (c : Cache) (n : Node) :
    ∃ es c' f, get_edges resp c n = (.ok es, c', f) := by
  unfold get_edges
  cases halook : alook n c with
  | some es => exact ⟨es, c, false, rfl⟩
  | none =>
    cases hresp : resp n with
    | failure => exact ⟨[], _, true, rfl⟩
    | success raws =>
      have hwf : raws.all wfRaw = true := by
        have := h n
        rw [hresp] at this
        exact this
      obtain ⟨es, hes⟩ := parseEdges_ok_of_wf n raws hwf
      exact ⟨es, dinsert n es c, true, by simp [hes]⟩

theorem iterF_not_failed (resp : Node → Response)
    (h : ∀ n, wfResp (resp n) = true) (s : SState) (pe : PyErr) (s' : SState) :
    iterF resp s ≠ .failed pe s' := by
  unfold iterF
  cases hq : s.queue_fwd with
  | nil => simp
  | cons hd qf =>
    obtain ⟨cur, path⟩ := hd
    simp only
    split
    · simp
    · obtain ⟨es, c', f, hge⟩ := get_edges_ok_of_wf resp h _ cur
      rw [hge]
      simp only
      split <;> simp

theorem iterB_not_failed (resp : Node → Response)
    (h : ∀ n, wfResp (resp n) = true) (s : SState) (pe : PyErr) (s' : SState) :
    iterB resp s ≠ .failed pe s' := by
  unfold iterB
  cases hq : s.queue_bwd with
  | nil => simp
  | cons hd qb =>
    obtain ⟨cur, path⟩ := hd
    simp only
    split
    · simp
    · obtain ⟨es, c', f, hge⟩ := get_edges_ok_of_wf resp h _ cur
      rw [hge]
      simp only
      split <;> simp

theorem iter_not_failed (resp : Node → Response)
    (h : ∀ n, wfResp (resp n) = true) (s : SState) (pe : PyErr) (s' : SState) :
    iter resp s ≠ .failed pe s' := by
  unfold iter
  cases hF : iterF resp s with
  | found pf pb s1 => simp
  | failed e s1 => exact absurd hF (iterF_not_failed resp h s e s1)
  | pruned s1 => simp
  | proceed s1 =>
    cases hB : iterB resp s1 with
    | found pf pb s2 => simp [hB]
    | failed e s2 => exact absurd hB (iterB_not_failed resp h s1 e s2)
    | pruned s2 => simp [hB]
    | proceed s2 => simp [hB]

theorem loop_not_error (resp : Node → Response)
    (h : ∀ n, wfResp (resp n) = true) (fuel : Nat) (s : SState) (pe : PyErr) :
    (loop resp fuel s).1 ≠ .error pe := by
  induction fuel generalizing s with
  | zero => simp [loop]
  | succ fuel ih =>
    unfold loop
    split
    · simp
    · cases hit : iter resp s with
      | found pf pb s' => simp
      | failed e s' => exact absurd hit (iter_not_failed resp h s e s')
      | pruned s' => exact ih s'
      | proceed s' => exact ih s'

/-! ## Claim C1 -/

/-- C1: the claim states that when the network fetch for a node fails,
`get_edges` returns an empty sequence *without* making the node a cache key,
so that a later call re-attempts the fetch.  The code violates this: the
store statement `self.node_cache[node_uri] = edges` sits after (outside) the
`except` clause and runs on the failure path too, caching the empty list.
This theorem evaluates the code at the failing input: the failed fetch
stores `[]` under the node, and a subsequent call — with the network now
working and the remote holding a real edge for the node — returns the cached
"no edges" answer with no fetch attempted (third component `false`). -/
theorem c1_failed_fetch_is_cached :
    get_edges (fun _ => Response.failure) [] "/c/en/x"
        = (.ok [], [("/c/en/x", [])], true)
    ∧ get_edges (fun _ => Response.success [rawOf ⟨"IsA", "/c/en/x", "/c/en/y"⟩])
        [("/c/en/x", [])] "/c/en/x"
        = (.ok [], [("/c/en/x", [])], false) := by
  constructor <;> rfl

/-! ## Claim C2 -/

/-- C2 counterexample: for the degenerate invocation `find_path(x, x)` the
early `return` happens before the `try`/`finally`, so `save_cache` runs zero
times — not exactly once as the claim states for every invocation. -/
theorem c2_counterexample_degenerate_no_save :
    (find_path (fun _ => Response.failure) [] 5 "/c/en/a" "/c/en/a").saves = 0 := by
  rfl

/-- C2 (amended): for every invocation with `start_node ≠ end_node`,
`save_cache` is invoked exactly once before `find_path` returns, whatever
the search outcome (found, not found, error, or even fuel exhaustion of the
model); the degenerate invocation with `start_node = end_node` returns
without invoking it. -/
theorem c2_save_exactly_once (resp : Node → Response) (c : Cache) (fuel : Nat)
    (s e : Node) (h : s ≠ e) :
    (find_path resp c fuel s e).saves = 1 := by
  simp [find_path, h]

/-- Witness for `c2_save_exactly_once` at a concrete input. -/
theorem c2_save_exactly_once_witness :
    ("/c/en/a" : Node) ≠ "/c/en/b"
    ∧ (find_path (fun _ => Response.failure) [] 5 "/c/en/a" "/c/en/b").saves = 1 :=
  ⟨by decide, c2_save_exactly_once _ _ _ _ _ (by decide)⟩

/-! ## Claim C7 -/

/-- C7: `find_path(x, x)` reports the immediate trivial outcome ("Start and
end nodes are the same.") and returns at once: no network call is made, no
node is processed, and neither frontier pops an entry. -/
theorem c7_same_node_trivial (resp : Node → Response) (cache0 : Cache)
    (fuel : Nat) (x : Node) :
    (find_path resp cache0 fuel x x).outcome = .sameNode
    ∧ (find_path resp cache0 fuel x x).final.fetches = 0
    ∧ (find_path resp cache0 fuel x x).final.nodes_processed = 0
    ∧ (find_path resp cache0 fuel x x).final.dequeues_fwd = 0
    ∧ (find_path resp cache0 fuel x x).final.dequeues_bwd = 0 := by
  simp [find_path, degenerateState]

/-! ## Claim C9 -/

/-- C9: for two consecutive permitted requests, the recorded permission
timestamps are at least `1/rate` apart.  The limiter's lock makes each
`wait()` one atomic check-and-update of `last_request_time`, so consecutive
permitted requests are consecutive state transitions; `now1` is the clock
reading taken inside `wait()`, and `now2` the reading recorded after the
conditional sleep, which (monotonic clock, sleep of at least the requested
amount) is at least `now1 + sleepTime`. -/
theorem c9_throttle_interval (rate : ℚ) (rl : RateLimiter) (now1 now2 : ℚ)
    (hdelay : rl.delay = 1 / rate)
    (hsleep : now1 + rl.sleepTime now1 ≤ now2) :
    1 / rate ≤ (rl.wait now2).last_request_time - rl.last_request_time := by
  have h := wait_interval rl now1 now2 hsleep
  rw [hdelay] at h
  exact h

/-- Witness for `c9_throttle_interval` at a concrete input: a limiter built
for one request per second, first reading 1, second reading 2. -/
theorem c9_throttle_interval_witness :
    (RateLimiter.init 1).delay = 1 / 1
    ∧ (1 : ℚ) + (RateLimiter.init 1).sleepTime 1 ≤ 2
    ∧ 1 / 1 ≤ ((RateLimiter.init 1).wait 2).last_request_time
        - (RateLimiter.init 1).last_request_time :=
  ⟨by norm_num [RateLimiter.init],
   by norm_num [RateLimiter.init, RateLimiter.sleepTime],
   c9_throttle_interval 1 _ 1 2 (by norm_num [RateLimiter.init])
     (by norm_num [RateLimiter.init, RateLimiter.sleepTime])⟩

/-! ## The chain database used by concrete counterexamples

Two disjoint undirected chains: one of twelve edges from the start node
`"s"`, one of twelve edges from the end node `"t"`.  On it the forward
frontier reaches depth 11 while the backward frontier is still busy, which
exhibits both the depth-11 frontier entries and the pruning `continue` that
skips a backward step. -/

def chainDb : Db :=
  [⟨"r", "s", "f1"⟩, ⟨"r", "f1", "f2"⟩, ⟨"r", "f2", "f3"⟩, ⟨"r", "f3", "f4"⟩,
   ⟨"r", "f4", "f5"⟩, ⟨"r", "f5", "f6"⟩, ⟨"r", "f6", "f7"⟩, ⟨"r", "f7", "f8"⟩,
   ⟨"r", "f8", "f9"⟩, ⟨"r", "f9", "fa"⟩, ⟨"r", "fa", "fb"⟩, ⟨"r", "fb", "fc"⟩,
   ⟨"r", "t", "b1"⟩, ⟨"r", "b1", "b2"⟩, ⟨"r", "b2", "b3"⟩, ⟨"r", "b3", "b4"⟩,
   ⟨"r", "b4", "b5"⟩, ⟨"r", "b5", "b6"⟩, ⟨"r", "b6", "b7"⟩, ⟨"r", "b7", "b8"⟩,
   ⟨"r", "b8", "b9"⟩, ⟨"r", "b9", "ba"⟩, ⟨"r", "ba", "bb"⟩, ⟨"r", "bb", "bc"⟩]

def chainResp : Node → Response := respOfDb chainDb

/-! ## Claim C3 counterexample -/

/-- C3 counterexample: the claim bounds every frontier entry's edge count by
the depth limit 10, but the pruning test `len(path) > 10` lets a dequeued
path of length exactly 10 be expanded, producing entries of length 11.  In
the chain graph, after 11 iterations the forward visited map holds node
`"fb"` with an 11-edge path, and an 11-edge entry sits at the head of the
forward queue. -/
theorem c3_counterexample_depth_eleven_entry :
    (alook "fb" (runIters chainResp 11 (initState [] "s" "t")).paths_fwd).map
        List.length = some 11
    ∧ headPathLen (runIters chainResp 11 (initState [] "s" "t")) = some 11 := by
  constructor <;> rfl

/-! ## Claim C4 -/

/-- C4 counterexample: in iteration 12 of the chain-graph run the dequeued
forward entry has path length 11 > 10 and is pruned, but the pruning is a
`continue` of the `while` loop: the backward frontier is *not* expanded in
that iteration — its queue is untouched, nonempty as it is, and its pop
counter does not advance, while the forward pop counter does. -/
theorem c4_counterexample_prune_skips_backward :
    headPathLen (runIters chainResp 11 (initState [] "s" "t")) = some 11
    ∧ (runIters chainResp 11 (initState [] "s" "t")).queue_bwd ≠ []
    ∧ (runIters chainResp 12 (initState [] "s" "t")).queue_bwd
        = (runIters chainResp 11 (initState [] "s" "t")).queue_bwd
    ∧ (runIters chainResp 12 (initState [] "s" "t")).dequeues_bwd
        = (runIters chainResp 11 (initState [] "s" "t")).dequeues_bwd
    ∧ (runIters chainResp 12 (initState [] "s" "t")).dequeues_fwd
        = (runIters chainResp 11 (initState [] "s" "t")).dequeues_fwd + 1 := by
  refine ⟨rfl, by decide, rfl, rfl, rfl⟩

/-- C4 (amended): when the dequeued forward entry's path length exceeds 10 it
is discarded without contacting the cache or client (cache and fetch count
unchanged), and the `continue` ends the whole iteration: the backward
frontier is *not* expanded in that iteration (backward queue, backward
visited map and backward pop counter all unchanged). -/
theorem c4_prune_skips_iteration (resp : Node → Response) (s : SState)
    (cur : Node) (path : Path) (qf : List (Node × Path))
    (hq : s.queue_fwd = (cur, path) :: qf) (hlen : path.length > 10) :
    iter resp s = .proceed { s with
      queue_fwd := qf,
      nodes_processed := s.nodes_processed + 1,
      dequeues_fwd := s.dequeues_fwd + 1 } := by
  unfold iter iterF
  rw [hq]
  simp [hlen, popF]

/-- The 11-edge path carried by the forward queue head after eleven
iterations of the chain-graph run. -/
def c4path : Path :=
  [⟨"r", "f1", .outgoing⟩, ⟨"r", "f2", .outgoing⟩, ⟨"r", "f3", .outgoing⟩,
   ⟨"r", "f4", .outgoing⟩, ⟨"r", "f5", .outgoing⟩, ⟨"r", "f6", .outgoing⟩,
   ⟨"r", "f7", .outgoing⟩, ⟨"r", "f8", .outgoing⟩, ⟨"r", "f9", .outgoing⟩,
   ⟨"r", "fa", .outgoing⟩, ⟨"r", "fb", .outgoing⟩]

/-- Witness for `c4_prune_skips_iteration` at a concrete state whose forward
queue head carries an 11-edge path. -/
theorem c4_prune_skips_iteration_witness :
    iter chainResp (runIters chainResp 11 (initState [] "s" "t"))
      = .proceed { runIters chainResp 11 (initState [] "s" "t") with
          queue_fwd := [],
          nodes_processed :=
            (runIters chainResp 11 (initState [] "s" "t")).nodes_processed + 1,
          dequeues_fwd :=
            (runIters chainResp 11 (initState [] "s" "t")).dequeues_fwd + 1 } :=
  c4_prune_skips_iteration chainResp _ "fb" c4path [] (by decide) (by decide)

/-! ## Claim C5 -/

/-- C5 counterexample: a fetch that succeeds at the transport level but whose
payload has an edge object missing the `'rel'` key raises a `KeyError` that
the `except requests.exceptions.RequestException` clause does not catch: the
error propagates out of `get_edges` and aborts the whole `find_path` search,
contradicting the claim that malformed responses only degrade the node's
edge set to empty. -/
theorem c5_counterexample_malformed_edge_aborts :
    (find_path (fun _ => Response.success [⟨none, some "/c/en/p", some "/c/en/q"⟩])
        [] 10 "/c/en/a" "/c/en/b").outcome = .error .keyError := by
  rfl

/-- C5 (amended): transport-level failures (connection errors, timeouts,
non-success statuses — everything the `except` clause catches) degrade the
node's edge set to empty and the search continues; and as long as every
response decodes into edge objects carrying the expected keys, no error
propagates out of `get_edges` or aborts `find_path`.  A successful response
with an edge object missing one of the `'rel'`/`'start'`/`'end'` keys,
however, raises an uncaught `KeyError` that aborts the search (the cache is
still saved on the way out). -/
theorem c5_transport_failures_never_abort :
    (∀ (resp : Node → Response) (c : Cache) (n : Node),
      resp n = .failure → alook n c = none →
        get_edges resp c n = (.ok [], dinsert n [] c, true))
    ∧ ∀ (resp : Node → Response), (∀ n, wfResp (resp n) = true) →
        ∀ (c : Cache) (fuel : Nat) (s e : Node) (pe : PyErr),
          (find_path resp c fuel s e).outcome ≠ .error pe := by
  constructor
  · intro resp c n hresp hmiss
    unfold get_edges
    rw [hmiss, hresp]
  · intro resp hwf c fuel s e pe
    unfold find_path
    split
    · simp
    · exact loop_not_error resp hwf fuel _ pe

/-- Witness for `c5_transport_failures_never_abort`: a service whose every
fetch fails at the transport level — the first conjunct applies to the first
call for a node, and the search aborts with no error. -/
theorem c5_transport_failures_never_abort_witness :
    get_edges (fun _ => Response.failure) [] "/c/en/n"
        = (.ok [], dinsert "/c/en/n" [] [], true)
    ∧ (find_path (fun _ => Response.failure) [] 6 "/c/en/a" "/c/en/b").outcome
        ≠ .error .keyError :=
  ⟨c5_transport_failures_never_abort.1 (fun _ => Response.failure) [] "/c/en/n" rfl rfl,
   c5_transport_failures_never_abort.2 (fun _ => Response.failure) (fun _ => rfl)
     [] 6 "/c/en/a" "/c/en/b" .keyError⟩

/-! ## Claim C6 -/

theorem mem_of_getLast?_eq {α : Type} (l : List α) (a : α)
    (h : l.getLast? = some a) : a ∈ l := by
  induction l with
  | nil => simp at h
  | cons x xs ih =>
    cases xs with
    | nil =>
      simp [List.getLast?] at h
      simp [h]
    | cons y ys =>
      rw [List.getLast?_cons_cons] at h
      exact List.mem_cons_of_mem x (ih h)

theorem zip_disp_map_reldir (rels : Path) (ns : List Node)
    (h : rels.length ≤ ns.length) :
    (List.zipWith (fun e n => DispStep.mk e.rel (flipDir e.dir) n) rels ns).map
        (fun d => (d.rel, d.dir))
      = rels.map (fun e => (e.rel, flipDir e.dir)) := by
  induction rels generalizing ns with
  | nil => simp
  | cons e es ih =>
    cases ns with
    | nil => simp at h
    | cons n ns =>
      simp only [List.length_cons, Nat.add_le_add_iff_right] at h
      simp [ih ns h]

theorem zip_disp_map_node (rels : Path) (ns : List Node)
    (h : rels.length = ns.length) :
    (List.zipWith (fun e n => DispStep.mk e.rel (flipDir e.dir) n) rels ns).map
        DispStep.node = ns := by
  induction rels generalizing ns with
  | nil =>
    cases ns with
    | nil => simp
    | cons n ns => simp at h
  | cons e es ih =>
    cases ns with
    | nil => simp at h
    | cons n ns =>
      simp only [List.length_cons, Nat.add_right_cancel_iff] at h
      simp [ih ns h]

/-- C6: the reconstructed display sequence emits the forward half-path
verbatim (its recorded relation labels, directions and nodes), then the
backward half-path in reversed step order with every direction flipped; the
chain of printed nodes starts at the start node, passes through the meeting
node, and ends at the end node.  The hypotheses say the forward half-path
walks from the start node to the meeting node and the backward half-path
from the end node to the meeting node (their printed node chains end at the
meeting node). -/
theorem c6_reconstruction (start_node end_node meet : Node) (pf pb : Path)
    (hf : (start_node :: pf.map Edge.neighbor).getLast? = some meet)
    (hb : (end_node :: pb.map Edge.neighbor).getLast? = some meet) :
    (reconstruct_and_print_path start_node end_node pf pb).2.take pf.length
        = pf.map (fun e => DispStep.mk e.rel e.dir e.neighbor)
    ∧ ((reconstruct_and_print_path start_node end_node pf pb).2.drop pf.length).map
          (fun d => (d.rel, d.dir))
        = pb.reverse.map (fun e => (e.rel, flipDir e.dir))
    ∧ (nodeChain (reconstruct_and_print_path start_node end_node pf pb)).head?
        = some start_node
    ∧ meet ∈ nodeChain (reconstruct_and_print_path start_node end_node pf pb)
    ∧ (nodeChain (reconstruct_and_print_path start_node end_node pf pb)).getLast?
        = some end_node := by
  have hA : (reconstruct_and_print_path start_node end_node pf pb).2
      = pf.map (fun e => DispStep.mk e.rel e.dir e.neighbor)
        ++ List.zipWith (fun e n => DispStep.mk e.rel (flipDir e.dir) n) pb.reverse
            (((end_node :: pb.map Edge.neighbor).reverse).drop 1) := rfl
  have hlenf : (pf.map (fun e => DispStep.mk e.rel e.dir e.neighbor)).length
      = pf.length := by simp
  have hlens : pb.reverse.length
      = (((end_node :: pb.map Edge.neighbor).reverse).drop 1).length := by simp
  have hchain : nodeChain (reconstruct_and_print_path start_node end_node pf pb)
      = (start_node :: pf.map Edge.neighbor)
        ++ ((end_node :: pb.map Edge.neighbor).reverse).drop 1 := by
    unfold nodeChain
    rw [hA, List.map_append, zip_disp_map_node _ _ hlens]
    simp only [List.cons_append, List.map_map, Function.comp_def]
    rfl
  refine ⟨?_, ?_, ?_, ?_, ?_⟩
  · rw [hA, ← hlenf, List.take_left]
  · rw [hA, ← hlenf, List.drop_left, zip_disp_map_reldir _ _ (le_of_eq hlens)]
  · simp [nodeChain, reconstruct_and_print_path]
  · rw [hchain]
    exact List.mem_append_left _ (mem_of_getLast?_eq _ _ hf)
  · rw [hchain]
    cases hpb : pb with
    | nil =>
      subst hpb
      simp only [List.map_nil, List.reverse_cons, List.reverse_nil, List.nil_append,
        List.drop_succ_cons, List.drop_nil, List.append_nil]
      simp only [List.map_nil] at hb
      have hme : end_node = meet := by
        simp [List.getLast?] at hb
        exact hb
      rw [hf, hme]
    | cons b bs =>
      subst hpb
      have hne : (((end_node :: (b :: bs).map Edge.neighbor).reverse).drop 1) ≠ [] := by
        intro hcon
        have := congrArg List.length hcon
        simp at this
      rw [List.getLast?_append_of_ne_nil _ hne]
      have hrev : (end_node :: (b :: bs).map Edge.neighbor).reverse
          = ((b :: bs).map Edge.neighbor).reverse ++ [end_node] := by
        simp
      rw [hrev, List.drop_append_of_le_length (by simp)]
      rw [List.getLast?_append_of_ne_nil _ (by simp)]
      rfl

/-- Witness for `c6_reconstruction`: the spec's own example shapes — forward
half-path one step to the meeting node, backward half-path one step from the
end node to the meeting node. -/
theorem c6_reconstruction_witness :
    (("/c/en/start" : Node) :: ([⟨"r1", "/c/en/A", .outgoing⟩] : Path).map
          Edge.neighbor).getLast? = some "/c/en/A"
    ∧ (("/c/en/end" : Node) :: ([⟨"r2", "/c/en/A", .incoming⟩] : Path).map
          Edge.neighbor).getLast? = some "/c/en/A"
    ∧ "/c/en/A" ∈ nodeChain (reconstruct_and_print_path "/c/en/start" "/c/en/end"
          [⟨"r1", "/c/en/A", .outgoing⟩] [⟨"r2", "/c/en/A", .incoming⟩])
    ∧ (nodeChain (reconstruct_and_print_path "/c/en/start" "/c/en/end"
          [⟨"r1", "/c/en/A", .outgoing⟩] [⟨"r2", "/c/en/A", .incoming⟩])).getLast?
        = some "/c/en/end" := by
  refine ⟨by decide, by decide, ?_, ?_⟩
  · exact (c6_reconstruction "/c/en/start" "/c/en/end" "/c/en/A"
      [⟨"r1", "/c/en/A", .outgoing⟩] [⟨"r2", "/c/en/A", .incoming⟩]
      (by decide) (by decide)).2.2.2.1
  · exact (c6_reconstruction "/c/en/start" "/c/en/end" "/c/en/A"
      [⟨"r1", "/c/en/A", .outgoing⟩] [⟨"r2", "/c/en/A", .incoming⟩]
      (by decide) (by decide)).2.2.2.2

/-! ## Properties of the expansion scan -/

theorem mem_dinsert {α : Type} (x : Node × α) (k : Node) (v : α)
    (c : List (Node × α)) (h : x ∈ dinsert k v c) : x ∈ c ∨ x = (k, v) := by
  induction c with
  | nil => simpa [dinsert] using h
  | cons hd tl ih =>
    obtain ⟨k', v'⟩ := hd
    by_cases hk : k' = k
    · subst hk
      unfold dinsert at h
      rw [if_pos rfl] at h
      cases h with
      | head => exact Or.inr rfl
      | tail _ h2 => exact Or.inl (List.mem_cons_of_mem _ h2)
    · unfold dinsert at h
      rw [if_neg hk] at h
      cases h with
      | head => exact Or.inl (List.mem_cons_self _ _)
      | tail _ h2 =>
        rcases ih h2 with h' | h'
        · exact Or.inl (List.mem_cons_of_mem _ h')
        · exact Or.inr h'

theorem expand_mono (other : List (Node × Path)) (path : Path) (es : List Edge)
    (vis q vis' q' : List (Node × Path))
    (h : expand other path es vis q = .noMeet vis' q') :
    ∀ v p, alook v vis = some p → alook v vis' = some p := by
  induction es generalizing vis q with
  | nil =>
    unfold expand at h
    cases h
    exact fun v p hp => hp
  | cons e es ih =>
    unfold expand at h
    cases hother : alook e.neighbor other with
    | some pOther => rw [hother] at h; cases h
    | none =>
      rw [hother] at h
      cases hvis : alook e.neighbor vis with
      | some p0 =>
        rw [hvis] at h
        exact ih _ _ h
      | none =>
        rw [hvis] at h
        intro v p hp
        refine ih _ _ h v p ?_
        rw [alook_dinsert]
        split
        · rename_i heq
          rw [heq] at hvis
          rw [hvis] at hp
          cases hp
        · exact hp

theorem expand_met (other : List (Node × Path)) (path : Path) (es : List Edge)
    (vis q : List (Node × Path)) (ps po : Path)
    (h : expand other path es vis q = .met ps po) :
    ∃ e ∈ es, ps = path ++ [e] ∧ alook e.neighbor other = some po := by
  induction es generalizing vis q with
  | nil => unfold expand at h; cases h
  | cons e es ih =>
    unfold expand at h
    cases hother : alook e.neighbor other with
    | some p0 =>
      rw [hother] at h
      cases h
      exact ⟨e, List.mem_cons_self e es, rfl, hother⟩
    | none =>
      rw [hother] at h
      cases hvis : alook e.neighbor vis with
      | some p1 =>
        rw [hvis] at h
        obtain ⟨e', he', h1, h2⟩ := ih _ _ h
        exact ⟨e', List.mem_cons_of_mem e he', h1, h2⟩
      | none =>
        rw [hvis] at h
        obtain ⟨e', he', h1, h2⟩ := ih _ _ h
        exact ⟨e', List.mem_cons_of_mem e he', h1, h2⟩

theorem expand_no_meet_absent (other : List (Node × Path)) (path : Path)
    (es : List Edge) (vis q vis' q' : List (Node × Path))
    (h : expand other path es vis q = .noMeet vis' q') :
    ∀ e ∈ es, alook e.neighbor other = none := by
  induction es generalizing vis q with
  | nil => intro e he; simp at he
  | cons e es ih =>
    unfold expand at h
    cases hother : alook e.neighbor other with
    | some p0 => rw [hother] at h; cases h
    | none =>
      rw [hother] at h
      intro e' he'
      rcases List.mem_cons.mp he' with h' | h'
      · rw [h']; exact hother
      · cases hvis : alook e.neighbor vis with
        | some p1 => rw [hvis] at h; exact ih _ _ h e' h'
        | none => rw [hvis] at h; exact ih _ _ h e' h'

theorem expand_vis_new (other : List (Node × Path)) (path : Path) (es : List Edge)
    (vis q vis' q' : List (Node × Path))
    (h : expand other path es vis q = .noMeet vis' q') :
    ∀ v p, alook v vis' = some p →
      alook v vis = some p ∨ ∃ e ∈ es, v = e.neighbor ∧ p = path ++ [e] := by
  induction es generalizing vis q with
  | nil =>
    unfold expand at h
    cases h
    exact fun v p hp => Or.inl hp
  | cons e es ih =>
    unfold expand at h
    cases hother : alook e.neighbor other with
    | some p0 => rw [hother] at h; cases h
    | none =>
      rw [hother] at h
      cases hvis : alook e.neighbor vis with
      | some p1 =>
        rw [hvis] at h
        intro v p hp
        rcases ih _ _ h v p hp with h' | ⟨e', he', h1, h2⟩
        · exact Or.inl h'
        · exact Or.inr ⟨e', List.mem_cons_of_mem e he', h1, h2⟩
      | none =>
        rw [hvis] at h
        intro v p hp
        rcases ih _ _ h v p hp with h' | ⟨e', he', h1, h2⟩
        · rw [alook_dinsert] at h'
          split at h'
          · rename_i heq
            cases h'
            exact Or.inr ⟨e, List.mem_cons_self e es, heq.symm, rfl⟩
          · exact Or.inl h'
        · exact Or.inr ⟨e', List.mem_cons_of_mem e he', h1, h2⟩

theorem expand_covers (other : List (Node × Path)) (path : Path) (es : List Edge)
    (vis q vis' q' : List (Node × Path))
    (hbound : ∀ v p, alook v vis = some p → p.length ≤ path.length + 1)
    (h : expand other path es vis q = .noMeet vis' q') :
    ∀ e ∈ es, ∃ p, alook e.neighbor vis' = some p ∧ p.length ≤ path.length + 1 := by
  induction es generalizing vis q with
  | nil => intro e he; simp at he
  | cons e es ih =>
    unfold expand at h
    cases hother : alook e.neighbor other with
    | some p0 => rw [hother] at h; cases h
    | none =>
      rw [hother] at h
      cases hvis : alook e.neighbor vis with
      | some p1 =>
        rw [hvis] at h
        intro e' he'
        rcases List.mem_cons.mp he' with h' | h'
        · subst h'
          exact ⟨p1, expand_mono _ _ _ _ _ _ _ h _ _ hvis, hbound _ _ hvis⟩
        · exact ih _ _ hbound h e' h'
      | none =>
        rw [hvis] at h
        have hbound2 : ∀ v p, alook v (dinsert e.neighbor (path ++ [e]) vis) = some p →
            p.length ≤ path.length + 1 := by
          intro v p hp
          rw [alook_dinsert] at hp
          split at hp
          · cases hp; simp
          · exact hbound _ _ hp
        intro e' he'
        rcases List.mem_cons.mp he' with h' | h'
        · rw [h']
          have hself : alook e.neighbor (dinsert e.neighbor (path ++ [e]) vis)
              = some (path ++ [e]) := by
            rw [alook_dinsert, if_pos rfl]
          exact ⟨path ++ [e], expand_mono _ _ _ _ _ _ _ h _ _ hself, by simp⟩
        · exact ih _ _ hbound2 h e' h'

theorem expand_ext (other : List (Node × Path)) (path : Path) (es : List Edge)
    (vis q vis' q' : List (Node × Path))
    (h : expand other path es vis q = .noMeet vis' q') :
    ∃ ext, q' = q ++ ext ∧ vis' = vis ++ ext
      ∧ (∀ x ∈ ext, alook x.1 vis = none ∧ x.2.length = path.length + 1
          ∧ alook x.1 vis' = some x.2 ∧ ∃ e ∈ es, x.1 = e.neighbor ∧ x.2 = path ++ [e])
      ∧ (ext.map Prod.fst).Nodup := by
  induction es generalizing vis q with
  | nil =>
    unfold expand at h
    cases h
    exact ⟨[], by simp, by simp, by simp, by simp⟩
  | cons e es ih =>
    unfold expand at h
    cases hother : alook e.neighbor other with
    | some p0 => rw [hother] at h; cases h
    | none =>
      rw [hother] at h
      cases hvis : alook e.neighbor vis with
      | some p1 =>
        rw [hvis] at h
        obtain ⟨ext, hq', hv', hfacts, hnd⟩ := ih _ _ h
        refine ⟨ext, hq', hv', ?_, hnd⟩
        intro x hx
        obtain ⟨h1, h2, h3, e', he', h4, h5⟩ := hfacts x hx
        exact ⟨h1, h2, h3, e', List.mem_cons_of_mem e he', h4, h5⟩
      | none =>
        rw [hvis] at h
        obtain ⟨ext2, hq', hv', hfacts, hnd⟩ := ih _ _ h
        refine ⟨(e.neighbor, path ++ [e]) :: ext2, ?_, ?_, ?_, ?_⟩
        · rw [hq', List.append_assoc]
          rfl
        · rw [hv', dinsert_of_absent _ _ _ hvis, List.append_assoc]
          rfl
        · intro x hx
          rcases List.mem_cons.mp hx with hx' | hx'
          · subst hx'
            refine ⟨hvis, by simp, ?_, e, List.mem_cons_self e es, rfl, rfl⟩
            exact expand_mono _ _ _ _ _ _ _ h _ _ (by rw [alook_dinsert, if_pos rfl])
          · obtain ⟨h1, h2, h3, e', he', h4, h5⟩ := hfacts x hx'
            have h1' : alook x.1 vis = none := by
              rw [alook_dinsert] at h1
              split at h1
              · cases h1
              · exact h1
            exact ⟨h1', h2, h3, e', List.mem_cons_of_mem e he', h4, h5⟩
        · rw [List.map_cons, List.nodup_cons]
          refine ⟨?_, hnd⟩
          intro hmem
          obtain ⟨x, hx, hx1⟩ := List.mem_map.mp hmem
          obtain ⟨h1, _, _, _⟩ := hfacts x hx
          rw [hx1, alook_dinsert, if_pos rfl] at h1
          cases h1

/-! ## Inversion of the iteration blocks -/

theorem iterF_pruned_elim (resp : Node → Response) (s s' : SState)
    (h : iterF resp s = .pruned s') :
    ∃ cur path qf, s.queue_fwd = (cur, path) :: qf ∧ path.length > 10
      ∧ s' = popF s qf := by
  unfold iterF at h
  cases hq : s.queue_fwd with
  | nil => rw [hq] at h; cases h
  | cons hd qf =>
    obtain ⟨cur, path⟩ := hd
    rw [hq] at h
    dsimp only at h
    by_cases hlen : path.length > 10
    · rw [if_pos hlen] at h
      cases h
      exact ⟨cur, path, qf, rfl, hlen, rfl⟩
    · rw [if_neg hlen] at h
      rcases hge : get_edges resp s.node_cache cur with ⟨res, c', f⟩
      rw [hge] at h
      dsimp only at h
      cases res with
      | error e => dsimp only at h; cases h
      | ok es =>
        dsimp only at h
        cases hex : expand s.paths_bwd path es s.paths_fwd qf with
        | met ps po => rw [hex] at h; cases h
        | noMeet vis q => rw [hex] at h; cases h

theorem iterF_proceed_elim (resp : Node → Response) (s s' : SState)
    (h : iterF resp s = .proceed s') :
    (s.queue_fwd = [] ∧ s' = s)
    ∨ ∃ cur path qf es c' f vis q, s.queue_fwd = (cur, path) :: qf
        ∧ ¬ path.length > 10
        ∧ get_edges resp s.node_cache cur = (.ok es, c', f)
        ∧ expand s.paths_bwd path es s.paths_fwd qf = .noMeet vis q
        ∧ s' = setF (fetched (popF s qf) c' f) vis q := by
  unfold iterF at h
  cases hq : s.queue_fwd with
  | nil =>
    rw [hq] at h
    cases h
    exact Or.inl ⟨rfl, rfl⟩
  | cons hd qf =>
    obtain ⟨cur, path⟩ := hd
    rw [hq] at h
    dsimp only at h
    by_cases hlen : path.length > 10
    · rw [if_pos hlen] at h; cases h
    · rw [if_neg hlen] at h
      rcases hge : get_edges resp s.node_cache cur with ⟨res, c', f⟩
      rw [hge] at h
      dsimp only at h
      cases res with
      | error e => dsimp only at h; cases h
      | ok es =>
        dsimp only at h
        cases hex : expand s.paths_bwd path es s.paths_fwd qf with
        | met ps po => rw [hex] at h; cases h
        | noMeet vis q =>
          rw [hex] at h
          cases h
          exact Or.inr ⟨cur, path, qf, es, c', f, vis, q, rfl, hlen, hge, hex, rfl⟩

theorem iterF_found_elim (resp : Node → Response) (s s' : SState) (pf pb : Path)
    (h : iterF resp s = .found pf pb s') :
    ∃ cur path qf es c' f, s.queue_fwd = (cur, path) :: qf
      ∧ ¬ path.length > 10
      ∧ get_edges resp s.node_cache cur = (.ok es, c', f)
      ∧ expand s.paths_bwd path es s.paths_fwd qf = .met pf pb
      ∧ s' = fetched (popF s qf) c' f := by
  unfold iterF at h
  cases hq : s.queue_fwd with
  | nil => rw [hq] at h; cases h
  | cons hd qf =>
    obtain ⟨cur, path⟩ := hd
    rw [hq] at h
    dsimp only at h
    by_cases hlen : path.length > 10
    · rw [if_pos hlen] at h; cases h
    · rw [if_neg hlen] at h
      rcases hge : get_edges resp s.node_cache cur with ⟨res, c', f⟩
      rw [hge] at h
      dsimp only at h
      cases res with
      | error e => dsimp only at h; cases h
      | ok es =>
        dsimp only at h
        cases hex : expand s.paths_bwd path es s.paths_fwd qf with
        | met ps po =>
          rw [hex] at h
          cases h
          exact ⟨cur, path, qf, es, c', f, rfl, hlen, hge, hex, rfl⟩
        | noMeet vis q => rw [hex] at h; cases h

theorem iterB_pruned_elim (resp : Node → Response) (s s' : SState)
    (h : iterB resp s = .pruned s') :
    ∃ cur path qb, s.queue_bwd = (cur, path) :: qb ∧ path.length > 10
      ∧ s' = popB s qb := by
  unfold iterB at h
  cases hq : s.queue_bwd with
  | nil => rw [hq] at h; cases h
  | cons hd qb =>
    obtain ⟨cur, path⟩ := hd
    rw [hq] at h
    dsimp only at h
    by_cases hlen : path.length > 10
    · rw [if_pos hlen] at h
      cases h
      exact ⟨cur, path, qb, rfl, hlen, rfl⟩
    · rw [if_neg hlen] at h
      rcases hge : get_edges resp s.node_cache cur with ⟨res, c', f⟩
      rw [hge] at h
      dsimp only at h
      cases res with
      | error e => dsimp only at h; cases h
      | ok es =>
        dsimp only at h
        cases hex : expand s.paths_fwd path es s.paths_bwd qb with
        | met ps po => rw [hex] at h; cases h
        | noMeet vis q => rw [hex] at h; cases h

theorem iterB_proceed_elim (resp : Node → Response) (s s' : SState)
    (h : iterB resp s = .proceed s') :
    (s.queue_bwd = [] ∧ s' = s)
    ∨ ∃ cur path qb es c' f vis q, s.queue_bwd = (cur, path) :: qb
        ∧ ¬ path.length > 10
        ∧ get_edges resp s.node_cache cur = (.ok es, c', f)
        ∧ expand s.paths_fwd path es s.paths_bwd qb = .noMeet vis q
        ∧ s' = setB (fetched (popB s qb) c' f) vis q := by
  unfold iterB at h
  cases hq : s.queue_bwd with
  | nil =>
    rw [hq] at h
    cases h
    exact Or.inl ⟨rfl, rfl⟩
  | cons hd qb =>
    obtain ⟨cur, path⟩ := hd
    rw [hq] at h
    dsimp only at h
    by_cases hlen : path.length > 10
    · rw [if_pos hlen] at h; cases h
    · rw [if_neg hlen] at h
      rcases hge : get_edges resp s.node_cache cur with ⟨res, c', f⟩
      rw [hge] at h
      dsimp only at h
      cases res with
      | error e => dsimp only at h; cases h
      | ok es =>
        dsimp only at h
        cases hex : expand s.paths_fwd path es s.paths_bwd qb with
        | met ps po => rw [hex] at h; cases h
        | noMeet vis q =>
          rw [hex] at h
          cases h
          exact Or.inr ⟨cur, path, qb, es, c', f, vis, q, rfl, hlen, hge, hex, rfl⟩

theorem iterB_found_elim (resp : Node → Response) (s s' : SState) (pf pb : Path)
    (h : iterB resp s = .found pf pb s') :
    ∃ cur path qb es c' f, s.queue_bwd = (cur, path) :: qb
      ∧ ¬ path.length > 10
      ∧ get_edges resp s.node_cache cur = (.ok es, c', f)
      ∧ expand s.paths_fwd path es s.paths_bwd qb = .met pb pf
      ∧ s' = fetched (popB s qb) c' f := by
  unfold iterB at h
  cases hq : s.queue_bwd with
  | nil => rw [hq] at h; cases h
  | cons hd qb =>
    obtain ⟨cur, path⟩ := hd
    rw [hq] at h
    dsimp only at h
    by_cases hlen : path.length > 10
    · rw [if_pos hlen] at h; cases h
    · rw [if_neg hlen] at h
      rcases hge : get_edges resp s.node_cache cur with ⟨res, c', f⟩
      rw [hge] at h
      dsimp only at h
      cases res with
      | error e => dsimp only at h; cases h
      | ok es =>
        dsimp only at h
        cases hex : expand s.paths_fwd path es s.paths_bwd qb with
        | met ps po =>
          rw [hex] at h
          cases h
          exact ⟨cur, path, qb, es, c', f, rfl, hlen, hge, hex, rfl⟩
        | noMeet vis q => rw [hex] at h; cases h

theorem iter_proceed_elim (resp : Node → Response) (s s' : SState)
    (h : iter resp s = .proceed s') :
    iterF resp s = .pruned s'
    ∨ ∃ s1, iterF resp s = .proceed s1
        ∧ (iterB resp s1 = .pruned s' ∨ iterB resp s1 = .proceed s') := by
  unfold iter at h
  cases hF : iterF resp s with
  | found pf pb s1 => rw [hF] at h; cases h
  | failed e s1 => rw [hF] at h; cases h
  | pruned s1 =>
    rw [hF] at h
    dsimp only at h
    cases h
    exact Or.inl rfl
  | proceed s1 =>
    rw [hF] at h
    dsimp only at h
    cases hB : iterB resp s1 with
    | found pf pb s2 => rw [hB] at h; cases h
    | failed e s2 => rw [hB] at h; cases h
    | pruned s2 =>
      rw [hB] at h
      dsimp only at h
      cases h
      exact Or.inr ⟨s1, rfl, Or.inl hB⟩
    | proceed s2 =>
      rw [hB] at h
      dsimp only at h
      cases h
      exact Or.inr ⟨s1, rfl, Or.inr hB⟩

theorem iter_found_elim (resp : Node → Response) (s s' : SState) (pf pb : Path)
    (h : iter resp s = .found pf pb s') :
    iterF resp s = .found pf pb s'
    ∨ ∃ s1, iterF resp s = .proceed s1 ∧ iterB resp s1 = .found pf pb s' := by
  unfold iter at h
  cases hF : iterF resp s with
  | found pf1 pb1 s1 =>
    rw [hF] at h
    dsimp only at h
    cases h
    exact Or.inl rfl
  | failed e s1 => rw [hF] at h; cases h
  | pruned s1 => rw [hF] at h; cases h
  | proceed s1 =>
    rw [hF] at h
    dsimp only at h
    cases hB : iterB resp s1 with
    | found pf1 pb1 s2 =>
      rw [hB] at h
      dsimp only at h
      cases h
      exact Or.inr ⟨s1, rfl, hB⟩
    | failed e s2 => rw [hB] at h; cases h
    | pruned s2 => rw [hB] at h; cases h
    | proceed s2 => rw [hB] at h; cases h

theorem expand_queue_match (other : List (Node × Path)) (path : Path)
    (es : List Edge) (vis q vis' q' : List (Node × Path))
    (hq : ∀ x ∈ q, alook x.1 vis = some x.2)
    (h : expand other path es vis q = .noMeet vis' q') :
    ∀ x ∈ q', alook x.1 vis' = some x.2 := by
  obtain ⟨ext, hq', _, hfacts, _⟩ := expand_ext _ _ _ _ _ _ _ h
  intro x hx
  rw [hq'] at hx
  rcases List.mem_append.mp hx with hx' | hx'
  · exact expand_mono _ _ _ _ _ _ _ h _ _ (hq x hx')
  · exact (hfacts x hx').2.2.1

/-! ## Depth invariant (claim C3) -/

/-- Every path attached to a frontier entry — queued or recorded in a
visited map, in either direction — has at most 11 edges. -/
def DepthInv (s : SState) : Prop :=
  (∀ x ∈ s.queue_fwd, (Prod.snd x).length ≤ 11)
  ∧ (∀ x ∈ s.queue_bwd, (Prod.snd x).length ≤ 11)
  ∧ (∀ x ∈ s.paths_fwd, (Prod.snd x).length ≤ 11)
  ∧ (∀ x ∈ s.paths_bwd, (Prod.snd x).length ≤ 11)

/-- Executable form of `DepthInv`. -/
def depthOk (s : SState) : Bool :=
  s.queue_fwd.all (fun x => decide ((Prod.snd x).length ≤ 11))
  && s.queue_bwd.all (fun x => decide ((Prod.snd x).length ≤ 11))
  && s.paths_fwd.all (fun x => decide ((Prod.snd x).length ≤ 11))
  && s.paths_bwd.all (fun x => decide ((Prod.snd x).length ≤ 11))

theorem depthOk_iff (s : SState) : depthOk s = true ↔ DepthInv s := by
  simp only [depthOk, DepthInv, List.all_eq_true, Bool.and_eq_true, decide_eq_true_eq,
    and_assoc]

theorem expand_entries (other : List (Node × Path)) (path : Path) (es : List Edge)
    (vis q vis' q' : List (Node × Path))
    (hlen : path.length ≤ 10)
    (hvis : ∀ x ∈ vis, (Prod.snd x).length ≤ 11)
    (hq : ∀ x ∈ q, (Prod.snd x).length ≤ 11)
    (h : expand other path es vis q = .noMeet vis' q') :
    (∀ x ∈ vis', (Prod.snd x).length ≤ 11)
    ∧ (∀ x ∈ q', (Prod.snd x).length ≤ 11) := by
  induction es generalizing vis q with
  | nil =>
    unfold expand at h
    cases h
    exact ⟨hvis, hq⟩
  | cons e es ih =>
    unfold expand at h
    cases hother : alook e.neighbor other with
    | some p0 => rw [hother] at h; cases h
    | none =>
      rw [hother] at h
      cases hvise : alook e.neighbor vis with
      | some p1 =>
        rw [hvise] at h
        exact ih _ _ hvis hq h
      | none =>
        rw [hvise] at h
        refine ih _ _ ?_ ?_ h
        · intro x hx
          rcases mem_dinsert _ _ _ _ hx with hx' | hx'
          · exact hvis x hx'
          · rw [hx']
            simp
            omega
        · intro x hx
          rcases List.mem_append.mp hx with hx' | hx'
          · exact hq x hx'
          · simp at hx'
            rw [hx']
            simp
            omega

theorem depth_iterF (resp : Node → Response) (s s' : SState) (h : DepthInv s)
    (hi : iterF resp s = .pruned s' ∨ iterF resp s = .proceed s') : DepthInv s' := by
  obtain ⟨hqf, hqb, hpf, hpb⟩ := h
  rcases hi with hi | hi
  · obtain ⟨cur, path, qf, hq, _, rfl⟩ := iterF_pruned_elim resp s s' hi
    refine ⟨?_, hqb, hpf, hpb⟩
    intro x hx
    exact hqf x (by rw [hq]; exact List.mem_cons_of_mem _ hx)
  · rcases iterF_proceed_elim resp s s' hi with ⟨_, rfl⟩ | hcase
    · exact ⟨hqf, hqb, hpf, hpb⟩
    · obtain ⟨cur, path, qf, es, c', f, vis, q, hq, hlen, hge, hex, rfl⟩ := hcase
      have hpath : path.length ≤ 10 := by omega
      have hqf' : ∀ x ∈ qf, (Prod.snd x).length ≤ 11 := by
        intro x hx
        exact hqf x (by rw [hq]; exact List.mem_cons_of_mem _ hx)
      obtain ⟨hv, hq'⟩ := expand_entries _ _ _ _ _ _ _ hpath hpf hqf' hex
      exact ⟨hq', hqb, hv, hpb⟩

theorem depth_iterB (resp : Node → Response) (s s' : SState) (h : DepthInv s)
    (hi : iterB resp s = .pruned s' ∨ iterB resp s = .proceed s') : DepthInv s' := by
  obtain ⟨hqf, hqb, hpf, hpb⟩ := h
  rcases hi with hi | hi
  · obtain ⟨cur, path, qb, hq, _, rfl⟩ := iterB_pruned_elim resp s s' hi
    refine ⟨hqf, ?_, hpf, hpb⟩
    intro x hx
    exact hqb x (by rw [hq]; exact List.mem_cons_of_mem _ hx)
  · rcases iterB_proceed_elim resp s s' hi with ⟨_, rfl⟩ | hcase
    · exact ⟨hqf, hqb, hpf, hpb⟩
    · obtain ⟨cur, path, qb, es, c', f, vis, q, hq, hlen, hge, hex, rfl⟩ := hcase
      have hpath : path.length ≤ 10 := by omega
      have hqb' : ∀ x ∈ qb, (Prod.snd x).length ≤ 11 := by
        intro x hx
        exact hqb x (by rw [hq]; exact List.mem_cons_of_mem _ hx)
      obtain ⟨hv, hq'⟩ := expand_entries _ _ _ _ _ _ _ hpath hpb hqb' hex
      exact ⟨hqf, hq', hpf, hv⟩

theorem iter_not_pruned (resp : Node → Response) (s s' : SState) :
    iter resp s ≠ .pruned s' := by
  unfold iter
  cases hF : iterF resp s with
  | found pf pb s1 => simp
  | failed e s1 => simp
  | pruned s1 => simp
  | proceed s1 =>
    cases hB : iterB resp s1 with
    | found pf pb s2 => simp [hB]
    | failed e s2 => simp [hB]
    | pruned s2 => simp [hB]
    | proceed s2 => simp [hB]

theorem stepGuard_depth (resp : Node → Response) (s : SState) (h : DepthInv s) :
    DepthInv (stepGuard resp s) := by
  unfold stepGuard
  split
  · exact h
  · cases hit : iter resp s with
    | found pf pb s' => exact h
    | failed e s' => exact h
    | pruned s' => exact absurd hit (iter_not_pruned resp s s')
    | proceed s' =>
      rcases iter_proceed_elim resp s s' hit with hF | ⟨s1, hF, hB⟩
      · exact depth_iterF resp s s' h (Or.inl hF)
      · exact depth_iterB resp s1 s' (depth_iterF resp s s1 h (Or.inr hF)) hB

theorem runIters_depth (resp : Node → Response) (n : Nat) (s : SState)
    (h : DepthInv s) : DepthInv (runIters resp n s) := by
  induction n generalizing s with
  | zero => exact h
  | succ n ih => exact ih _ (stepGuard_depth resp s h)

/-- C3 (amended): at every point during a `find_path` search, every entry of
either frontier (visited map or queue, both directions) has edge count at
most 11: a dequeued path of length exactly 10 passes the `len(path) > 10`
pruning test and is expanded, so its children of length 11 are recorded and
enqueued; they are pruned on dequeue and never expanded, so no path of
length 12 ever appears. -/
theorem c3_depth_le_eleven (resp : Node → Response) (n : Nat)
    (start_node end_node : Node) (cache0 : Cache) :
    depthOk (runIters resp n (initState cache0 start_node end_node)) = true := by
  rw [depthOk_iff]
  refine runIters_depth resp n _ ⟨?_, ?_, ?_, ?_⟩ <;>
    simp [initState]

/-! ## Write-once visited maps and queue-visited agreement (claim C10) -/

/-- Every pair sitting on a frontier queue is recorded, with that very path,
in that frontier's visited map. -/
def QMatch (s : SState) : Prop :=
  (∀ x ∈ s.queue_fwd, alook (Prod.fst x) s.paths_fwd = some (Prod.snd x))
  ∧ (∀ x ∈ s.queue_bwd, alook (Prod.fst x) s.paths_bwd = some (Prod.snd x))

/-- Executable form of `QMatch`. -/
def queuesMatch (s : SState) : Bool :=
  s.queue_fwd.all (fun x => decide (alook (Prod.fst x) s.paths_fwd = some (Prod.snd x)))
  && s.queue_bwd.all (fun x => decide (alook (Prod.fst x) s.paths_bwd = some (Prod.snd x)))

theorem queuesMatch_iff (s : SState) : queuesMatch s = true ↔ QMatch s := by
  simp only [queuesMatch, QMatch, List.all_eq_true, Bool.and_eq_true, decide_eq_true_eq]

theorem iterF_fwd_mono (resp : Node → Response) (s s' : SState)
    (hi : iterF resp s = .pruned s' ∨ iterF resp s = .proceed s') :
    ∀ v p, alook v s.paths_fwd = some p → alook v s'.paths_fwd = some p := by
  rcases hi with hi | hi
  · obtain ⟨cur, path, qf, hq, _, rfl⟩ := iterF_pruned_elim resp s s' hi
    exact fun v p hp => hp
  · rcases iterF_proceed_elim resp s s' hi with ⟨_, rfl⟩ | hcase
    · exact fun v p hp => hp
    · obtain ⟨cur, path, qf, es, c', f, vis, q, hq, hlen, hge, hex, rfl⟩ := hcase
      exact fun v p hp => expand_mono _ _ _ _ _ _ _ hex v p hp

theorem iterF_bwd_eq (resp : Node → Response) (s s' : SState)
    (hi : iterF resp s = .pruned s' ∨ iterF resp s = .proceed s') :
    s'.paths_bwd = s.paths_bwd ∧ s'.queue_bwd = s.queue_bwd := by
  rcases hi with hi | hi
  · obtain ⟨cur, path, qf, hq, _, rfl⟩ := iterF_pruned_elim resp s s' hi
    exact ⟨rfl, rfl⟩
  · rcases iterF_proceed_elim resp s s' hi with ⟨_, rfl⟩ | hcase
    · exact ⟨rfl, rfl⟩
    · obtain ⟨cur, path, qf, es, c', f, vis, q, hq, hlen, hge, hex, rfl⟩ := hcase
      exact ⟨rfl, rfl⟩

theorem iterB_bwd_mono (resp : Node → Response) (s s' : SState)
    (hi : iterB resp s = .pruned s' ∨ iterB resp s = .proceed s') :
    ∀ v p, alook v s.paths_bwd = some p → alook v s'.paths_bwd = some p := by
  rcases hi with hi | hi
  · obtain ⟨cur, path, qb, hq, _, rfl⟩ := iterB_pruned_elim resp s s' hi
    exact fun v p hp => hp
  · rcases iterB_proceed_elim resp s s' hi with ⟨_, rfl⟩ | hcase
    · exact fun v p hp => hp
    · obtain ⟨cur, path, qb, es, c', f, vis, q, hq, hlen, hge, hex, rfl⟩ := hcase
      exact fun v p hp => expand_mono _ _ _ _ _ _ _ hex v p hp

theorem iterB_fwd_eq (resp : Node → Response) (s s' : SState)
    (hi : iterB resp s = .pruned s' ∨ iterB resp s = .proceed s') :
    s'.paths_fwd = s.paths_fwd ∧ s'.queue_fwd = s.queue_fwd := by
  rcases hi with hi | hi
  · obtain ⟨cur, path, qb, hq, _, rfl⟩ := iterB_pruned_elim resp s s' hi
    exact ⟨rfl, rfl⟩
  · rcases iterB_proceed_elim resp s s' hi with ⟨_, rfl⟩ | hcase
    · exact ⟨rfl, rfl⟩
    · obtain ⟨cur, path, qb, es, c', f, vis, q, hq, hlen, hge, hex, rfl⟩ := hcase
      exact ⟨rfl, rfl⟩

theorem stepGuard_fwd_mono (resp : Node → Response) (s : SState) :
    ∀ v p, alook v s.paths_fwd = some p
      → alook v (stepGuard resp s).paths_fwd = some p := by
  intro v p hp
  unfold stepGuard
  split
  · exact hp
  · cases hit : iter resp s with
    | found pf pb s' => exact hp
    | failed e s' => exact hp
    | pruned s' => exact absurd hit (iter_not_pruned resp s s')
    | proceed s' =>
      dsimp only
      rcases iter_proceed_elim resp s s' hit with hF | ⟨s1, hF, hB⟩
      · exact iterF_fwd_mono resp s s' (Or.inl hF) v p hp
      · rw [(iterB_fwd_eq resp s1 s' hB).1]
        exact iterF_fwd_mono resp s s1 (Or.inr hF) v p hp

theorem stepGuard_bwd_mono (resp : Node → Response) (s : SState) :
    ∀ v p, alook v s.paths_bwd = some p
      → alook v (stepGuard resp s).paths_bwd = some p := by
  intro v p hp
  unfold stepGuard
  split
  · exact hp
  · cases hit : iter resp s with
    | found pf pb s' => exact hp
    | failed e s' => exact hp
    | pruned s' => exact absurd hit (iter_not_pruned resp s s')
    | proceed s' =>
      dsimp only
      rcases iter_proceed_elim resp s s' hit with hF | ⟨s1, hF, hB⟩
      · rw [(iterF_bwd_eq resp s s' (Or.inl hF)).1]
        exact hp
      · refine iterB_bwd_mono resp s1 s' hB v p ?_
        rw [(iterF_bwd_eq resp s s1 (Or.inr hF)).1]
        exact hp

theorem qmatch_iterF (resp : Node → Response) (s s' : SState) (h : QMatch s)
    (hi : iterF resp s = .pruned s' ∨ iterF resp s = .proceed s') : QMatch s' := by
  obtain ⟨hf, hb⟩ := h
  have hbeq := iterF_bwd_eq resp s s' hi
  rcases hi with hi | hi
  · obtain ⟨cur, path, qf, hq, _, rfl⟩ := iterF_pruned_elim resp s s' hi
    refine ⟨?_, ?_⟩
    · intro x hx
      exact hf x (by rw [hq]; exact List.mem_cons_of_mem _ hx)
    · exact hb
  · rcases iterF_proceed_elim resp s s' hi with ⟨_, rfl⟩ | hcase
    · exact ⟨hf, hb⟩
    · obtain ⟨cur, path, qf, es, c', f, vis, q, hq, hlen, hge, hex, rfl⟩ := hcase
      refine ⟨?_, hb⟩
      intro x hx
      refine expand_queue_match _ _ _ _ _ _ _ ?_ hex x hx
      intro y hy
      exact hf y (by rw [hq]; exact List.mem_cons_of_mem _ hy)

theorem qmatch_iterB (resp : Node → Response) (s s' : SState) (h : QMatch s)
    (hi : iterB resp s = .pruned s' ∨ iterB resp s = .proceed s') : QMatch s' := by
  obtain ⟨hf, hb⟩ := h
  rcases hi with hi | hi
  · obtain ⟨cur, path, qb, hq, _, rfl⟩ := iterB_pruned_elim resp s s' hi
    refine ⟨hf, ?_⟩
    intro x hx
    exact hb x (by rw [hq]; exact List.mem_cons_of_mem _ hx)
  · rcases iterB_proceed_elim resp s s' hi with ⟨_, rfl⟩ | hcase
    · exact ⟨hf, hb⟩
    · obtain ⟨cur, path, qb, es, c', f, vis, q, hq, hlen, hge, hex, rfl⟩ := hcase
      refine ⟨hf, ?_⟩
      intro x hx
      refine expand_queue_match _ _ _ _ _ _ _ ?_ hex x hx
      intro y hy
      exact hb y (by rw [hq]; exact List.mem_cons_of_mem _ hy)

theorem stepGuard_qmatch (resp : Node → Response) (s : SState) (h : QMatch s) :
    QMatch (stepGuard resp s) := by
  unfold stepGuard
  split
  · exact h
  · cases hit : iter resp s with
    | found pf pb s' => exact h
    | failed e s' => exact h
    | pruned s' => exact absurd hit (iter_not_pruned resp s s')
    | proceed s' =>
      rcases iter_proceed_elim resp s s' hit with hF | ⟨s1, hF, hB⟩
      · exact qmatch_iterF resp s s' h (Or.inl hF)
      · exact qmatch_iterB resp s1 s' (qmatch_iterF resp s s1 h (Or.inr hF)) hB

theorem runIters_qmatch (resp : Node → Response) (n : Nat) (s : SState)
    (h : QMatch s) : QMatch (runIters resp n s) := by
  induction n generalizing s with
  | zero => exact h
  | succ n ih => exact ih _ (stepGuard_qmatch resp s h)

/-- C10: during every `find_path` search, each frontier's visited map is
write-once — a recorded entry is never overwritten or removed by a later
iteration — and every pair sitting on a frontier's queue agrees with its
visited map (`visited[node] = path`), both at initialization and after any
number of loop iterations. -/
theorem c10_write_once_and_queue_match (resp : Node → Response) (n : Nat)
    (start_node end_node : Node) (cache0 : Cache) :
    queuesMatch (runIters resp n (initState cache0 start_node end_node)) = true
    ∧ (∀ (s : SState) (v : Node) (p : Path),
        alook v s.paths_fwd = some p → alook v (stepGuard resp s).paths_fwd = some p)
    ∧ (∀ (s : SState) (v : Node) (p : Path),
        alook v s.paths_bwd = some p → alook v (stepGuard resp s).paths_bwd = some p) := by
  refine ⟨?_, stepGuard_fwd_mono resp, stepGuard_bwd_mono resp⟩
  rw [queuesMatch_iff]
  refine runIters_qmatch resp n _ ⟨?_, ?_⟩ <;>
    simp [initState, alook]

/-- Witness for `c10_write_once_and_queue_match` at a concrete input. -/
theorem c10_write_once_witness :
    queuesMatch (runIters chainResp 3 (initState [] "s" "t")) = true
    ∧ alook "s" (stepGuard chainResp (initState [] "s" "t")).paths_fwd = some []
    ∧ alook "t" (stepGuard chainResp (initState [] "s" "t")).paths_bwd = some [] :=
  ⟨(c10_write_once_and_queue_match chainResp 3 "s" "t" []).1,
   (c10_write_once_and_queue_match chainResp 3 "s" "t" []).2.1
     (initState [] "s" "t") "s" [] (by decide),
   (c10_write_once_and_queue_match chainResp 3 "s" "t" []).2.2
     (initState [] "s" "t") "t" [] (by decide)⟩

/-! ## The served graph: basic lemmas -/

theorem alook_append {α : Type} (k : Node) (a b : List (Node × α)) :
    alook k (a ++ b)
      = match alook k a with | some v => some v | none => alook k b := by
  induction a with
  | nil => rfl
  | cons hd tl ih =>
    obtain ⟨k', v'⟩ := hd
    by_cases hk : k' = k <;> simp [alook, hk, ih]

theorem mem_keys_of_alook {α : Type} (k : Node) (v : α) (c : List (Node × α))
    (h : alook k c = some v) : k ∈ c.map Prod.fst := by
  induction c with
  | nil => simp [alook] at h
  | cons hd tl ih =>
    obtain ⟨k', v'⟩ := hd
    by_cases hk : k' = k
    · simp [hk]
    · rw [alook, if_neg hk] at h
      simp [ih h]

theorem parseEdge_rawOf (n : Node) (r : EdgeRecord) :
    parseEdge n (rawOf r)
      = .ok (if r.startId = n then some ⟨r.rel, r.endId, .outgoing⟩
             else if r.endId = n then some ⟨r.rel, r.startId, .incoming⟩
             else none) := by
  unfold parseEdge rawOf
  by_cases h1 : r.startId = n <;> by_cases h2 : r.endId = n <;> simp [h1, h2]

theorem parse_serve (db : Db) (n : Node) :
    parseEdges n (db.map rawOf) = .ok (serve db n) := by
  induction db with
  | nil => rfl
  | cons r rs ih =>
    rw [List.map_cons]
    unfold parseEdges
    rw [parseEdge_rawOf, ih]
    unfold serve
    rw [List.filterMap_cons]
    by_cases h1 : r.startId = n
    · simp [h1, serve]
    · by_cases h2 : r.endId = n <;> simp [h1, h2, serve]

theorem wf_respOfDb (db : Db) : ∀ n, wfResp (respOfDb db n) = true := by
  intro n
  unfold respOfDb wfResp
  rw [List.all_eq_true]
  intro x hx
  obtain ⟨r, _, rfl⟩ := List.mem_map.mp hx
  rfl

theorem mem_serve_iff (db : Db) (n : Node) (e : Edge) :
    e ∈ serve db n
      ↔ ∃ r ∈ db, (r.startId = n ∧ e = ⟨r.rel, r.endId, .outgoing⟩)
          ∨ (r.startId ≠ n ∧ r.endId = n ∧ e = ⟨r.rel, r.startId, .incoming⟩) := by
  unfold serve
  rw [List.mem_filterMap]
  constructor
  · rintro ⟨r, hr, hf⟩
    refine ⟨r, hr, ?_⟩
    by_cases h1 : r.startId = n
    · rw [if_pos h1] at hf
      cases hf
      exact Or.inl ⟨h1, rfl⟩
    · rw [if_neg h1] at hf
      by_cases h2 : r.endId = n
      · rw [if_pos h2] at hf
        cases hf
        exact Or.inr ⟨h1, h2, rfl⟩
      · rw [if_neg h2] at hf
        cases hf
  · rintro ⟨r, hr, hcase | hcase⟩
    · obtain ⟨h1, rfl⟩ := hcase
      exact ⟨r, hr, by rw [if_pos h1]⟩
    · obtain ⟨h1, h2, rfl⟩ := hcase
      exact ⟨r, hr, by rw [if_neg h1, if_pos h2]⟩

theorem mem_nbrs_iff (db : Db) (u v : Node) :
    v ∈ nbrs db u
      ↔ ∃ r ∈ db, (r.startId = u ∧ r.endId = v)
          ∨ (r.startId ≠ u ∧ r.endId = u ∧ r.startId = v) := by
  unfold nbrs
  rw [List.mem_map]
  constructor
  · rintro ⟨e, he, rfl⟩
    obtain ⟨r, hr, hcase | hcase⟩ := (mem_serve_iff db u e).mp he
    · obtain ⟨h1, rfl⟩ := hcase
      exact ⟨r, hr, Or.inl ⟨h1, rfl⟩⟩
    · obtain ⟨h1, h2, rfl⟩ := hcase
      exact ⟨r, hr, Or.inr ⟨h1, h2, rfl⟩⟩
  · rintro ⟨r, hr, hcase | hcase⟩
    · obtain ⟨h1, h2⟩ := hcase
      refine ⟨⟨r.rel, r.endId, .outgoing⟩, ?_, h2⟩
      exact (mem_serve_iff db u _).mpr ⟨r, hr, Or.inl ⟨h1, rfl⟩⟩
    · obtain ⟨h1, h2, h3⟩ := hcase
      refine ⟨⟨r.rel, r.startId, .incoming⟩, ?_, h3⟩
      exact (mem_serve_iff db u _).mpr ⟨r, hr, Or.inr ⟨h1, h2, rfl⟩⟩

theorem nbrs_symm (db : Db) (u v : Node) (h : v ∈ nbrs db u) : u ∈ nbrs db v := by
  obtain ⟨r, hr, hcase | hcase⟩ := (mem_nbrs_iff db u v).mp h
  · obtain ⟨h1, h2⟩ := hcase
    by_cases h3 : r.startId = v
    · have huv : u = v := h3 ▸ h1.symm ▸ rfl
      refine (mem_nbrs_iff db v u).mpr ⟨r, hr, Or.inl ⟨h3, ?_⟩⟩
      rw [h2, huv]
    · exact (mem_nbrs_iff db v u).mpr ⟨r, hr, Or.inr ⟨h3, h2, h1⟩⟩
  · obtain ⟨h1, h2, h3⟩ := hcase
    exact (mem_nbrs_iff db v u).mpr ⟨r, hr, Or.inl ⟨h3, h2⟩⟩

theorem mem_dbNodes_of_mem (db : Db) (r : EdgeRecord) (h : r ∈ db) :
    r.startId ∈ dbNodes db ∧ r.endId ∈ dbNodes db := by
  induction db with
  | nil => simp at h
  | cons r0 rs ih =>
    cases h with
    | head =>
      constructor
      · exact List.mem_cons_self _ _
      · exact List.mem_cons_of_mem _ (List.mem_cons_self _ _)
    | tail _ h' =>
      obtain ⟨h1, h2⟩ := ih h'
      constructor
      · exact List.mem_cons_of_mem _ (List.mem_cons_of_mem _ h1)
      · exact List.mem_cons_of_mem _ (List.mem_cons_of_mem _ h2)

theorem serve_neighbor_mem (db : Db) (n : Node) (e : Edge) (h : e ∈ serve db n) :
    e.neighbor ∈ dbNodes db := by
  obtain ⟨r, hr, hcase | hcase⟩ := (mem_serve_iff db n e).mp h
  · obtain ⟨_, rfl⟩ := hcase
    exact (mem_dbNodes_of_mem db r hr).2
  · obtain ⟨_, _, rfl⟩ := hcase
    exact (mem_dbNodes_of_mem db r hr).1

theorem dbNodes_length (db : Db) : (dbNodes db).length = 2 * db.length := by
  induction db with
  | nil => rfl
  | cons r rs ih => simp [dbNodes, ih]; omega

/-! ## Walks -/

theorem walk_zero (db : Db) (a b : Node) (h : Walk db a b 0) : a = b := by
  cases h
  rfl

theorem walk_succ_inv (db : Db) (a b : Node) (k : Nat) (h : Walk db a b (k + 1)) :
    ∃ w, w ∈ nbrs db a ∧ Walk db w b k := by
  cases h with
  | cons hn hw => exact ⟨_, hn, hw⟩

theorem walk_snoc (db : Db) (a b c : Node) (k : Nat)
    (h : Walk db a b k) (hn : c ∈ nbrs db b) : Walk db a c (k + 1) := by
  induction h with
  | nil => exact Walk.cons hn (Walk.nil c)
  | cons h1 _ ih => exact Walk.cons h1 (ih hn)

theorem walk_symm (db : Db) (a b : Node) (k : Nat) (h : Walk db a b k) :
    Walk db b a k := by
  induction h with
  | nil => exact Walk.nil _
  | cons h1 _ ih => exact walk_snoc db _ _ _ _ ih (nbrs_symm db _ _ h1)

theorem walk_comp (db : Db) (a b c : Node) (k m : Nat)
    (h1 : Walk db a b k) (h2 : Walk db b c m) : ∃ n, Walk db a c n := by
  induction h1 with
  | nil => exact ⟨m, h2⟩
  | cons ha _ ih =>
    obtain ⟨n, hn⟩ := ih h2
    exact ⟨n + 1, Walk.cons ha hn⟩

theorem pathFrom_walk (db : Db) (o : Node) (p : Path) (v : Node)
    (h : PathFrom db o p v) : Walk db o v p.length := by
  induction h with
  | nil => exact Walk.nil _
  | snoc _ he ih =>
    have := walk_snoc db _ _ _ _ ih (List.mem_map.mpr ⟨_, he, rfl⟩)
    simpa using this

/-! ## Projections of the state builders -/

@[simp] theorem popF_qf (s : SState) (l : List (Node × Path)) : (popF s l).queue_fwd = l := rfl
@[simp] theorem popF_qb (s : SState) (l : List (Node × Path)) : (popF s l).queue_bwd = s.queue_bwd := rfl
@[simp] theorem popF_pf (s : SState) (l : List (Node × Path)) : (popF s l).paths_fwd = s.paths_fwd := rfl
@[simp] theorem popF_pb (s : SState) (l : List (Node × Path)) : (popF s l).paths_bwd = s.paths_bwd := rfl
@[simp] theorem popF_nc (s : SState) (l : List (Node × Path)) : (popF s l).node_cache = s.node_cache := rfl
@[simp] theorem popB_qf (s : SState) (l : List (Node × Path)) : (popB s l).queue_fwd = s.queue_fwd := rfl
@[simp] theorem popB_qb (s : SState) (l : List (Node × Path)) : (popB s l).queue_bwd = l := rfl
@[simp] theorem popB_pf (s : SState) (l : List (Node × Path)) : (popB s l).paths_fwd = s.paths_fwd := rfl
@[simp] theorem popB_pb (s : SState) (l : List (Node × Path)) : (popB s l).paths_bwd = s.paths_bwd := rfl
@[simp] theorem popB_nc (s : SState) (l : List (Node × Path)) : (popB s l).node_cache = s.node_cache := rfl
@[simp] theorem fetched_qf (s : SState) (c : Cache) (f : Bool) : (fetched s c f).queue_fwd = s.queue_fwd := rfl
@[simp] theorem fetched_qb (s : SState) (c : Cache) (f : Bool) : (fetched s c f).queue_bwd = s.queue_bwd := rfl
@[simp] theorem fetched_pf (s : SState) (c : Cache) (f : Bool) : (fetched s c f).paths_fwd = s.paths_fwd := rfl
@[simp] theorem fetched_pb (s : SState) (c : Cache) (f : Bool) : (fetched s c f).paths_bwd = s.paths_bwd := rfl
@[simp] theorem fetched_nc (s : SState) (c : Cache) (f : Bool) : (fetched s c f).node_cache = c := rfl
@[simp] theorem setF_qf (s : SState) (v q : List (Node × Path)) : (setF s v q).queue_fwd = q := rfl
@[simp] theorem setF_qb (s : SState) (v q : List (Node × Path)) : (setF s v q).queue_bwd = s.queue_bwd := rfl
@[simp] theorem setF_pf (s : SState) (v q : List (Node × Path)) : (setF s v q).paths_fwd = v := rfl
@[simp] theorem setF_pb (s : SState) (v q : List (Node × Path)) : (setF s v q).paths_bwd = s.paths_bwd := rfl
@[simp] theorem setF_nc (s : SState) (v q : List (Node × Path)) : (setF s v q).node_cache = s.node_cache := rfl
@[simp] theorem setB_qf (s : SState) (v q : List (Node × Path)) : (setB s v q).queue_fwd = s.queue_fwd := rfl
@[simp] theorem setB_qb (s : SState) (v q : List (Node × Path)) : (setB s v q).queue_bwd = q := rfl
@[simp] theorem setB_pf (s : SState) (v q : List (Node × Path)) : (setB s v q).paths_fwd = s.paths_fwd := rfl
@[simp] theorem setB_pb (s : SState) (v q : List (Node × Path)) : (setB s v q).paths_bwd = v := rfl
@[simp] theorem setB_nc (s : SState) (v q : List (Node × Path)) : (setB s v q).node_cache = s.node_cache := rfl

/-! ## The search invariant for a served database -/

theorem get_edges_db (db : Db) (c : Cache) (n : Node) (hc : cacheConsistent db c)
    (res : Except PyErr (List Edge)) (c' : Cache) (f : Bool)
    (h : get_edges (respOfDb db) c n = (res, c', f)) :
    res = .ok (serve db n) ∧ cacheConsistent db c' := by
  unfold get_edges at h
  cases halook : alook n c with
  | some es =>
    rw [halook] at h
    cases h
    exact ⟨by rw [hc n es halook], hc⟩
  | none =>
    rw [halook] at h
    simp only [respOfDb] at h
    rw [parse_serve] at h
    cases h
    refine ⟨rfl, ?_⟩
    intro m es hm
    rw [alook_dinsert] at hm
    split at hm
    · rename_i hnm
      cases hm
      rw [hnm]
    · exact hc m es hm

/-- The queue-level ordering used by the BFS argument: path lengths along a
queue are nondecreasing and stay within one of each other. -/
def LevelRel (a b : Node × Path) : Prop :=
  (Prod.snd a).length ≤ (Prod.snd b).length
  ∧ (Prod.snd b).length ≤ (Prod.snd a).length + 1

/-- The inductive invariant of the bidirectional search loop over a served
database, as needed for the termination/completeness claim: cache
consistency, membership of the origins in their visited maps, agreement of
queues with visited maps, per-direction once-only enqueueing, breadth-first
level structure of the queues, the closure of already-expanded nodes, and
validity of every recorded half-path. -/
structure SearchInv (db : Db) (start_node end_node : Node) (s : SState) : Prop where
  cache : cacheConsistent db s.node_cache
  startMem : alook start_node s.paths_fwd = some []
  endMem : alook end_node s.paths_bwd = some []
  queueSubF : ∀ x ∈ s.queue_fwd, alook (Prod.fst x) s.paths_fwd = some (Prod.snd x)
  queueSubB : ∀ x ∈ s.queue_bwd, alook (Prod.fst x) s.paths_bwd = some (Prod.snd x)
  nodupF : (s.queue_fwd.map Prod.fst).Nodup
  nodupB : (s.queue_bwd.map Prod.fst).Nodup
  levelsF : s.queue_fwd.Pairwise LevelRel
  levelsB : s.queue_bwd.Pairwise LevelRel
  nearF : ∀ v p, alook v s.paths_fwd = some p →
      ∀ x ∈ s.queue_fwd, p.length ≤ (Prod.snd x).length + 1
  nearB : ∀ v p, alook v s.paths_bwd = some p →
      ∀ x ∈ s.queue_bwd, p.length ≤ (Prod.snd x).length + 1
  doneF : ∀ v p, alook v s.paths_fwd = some p →
      (∀ x ∈ s.queue_fwd, Prod.fst x ≠ v) → p.length ≤ 10 →
      end_node ∉ nbrs db v
      ∧ ∀ w ∈ nbrs db v, ∃ pw, alook w s.paths_fwd = some pw
          ∧ pw.length ≤ p.length + 1
  doneB : ∀ v p, alook v s.paths_bwd = some p →
      (∀ x ∈ s.queue_bwd, Prod.fst x ≠ v) → p.length ≤ 10 →
      start_node ∉ nbrs db v
      ∧ ∀ w ∈ nbrs db v, ∃ pw, alook w s.paths_bwd = some pw
          ∧ pw.length ≤ p.length + 1
  soundF : ∀ v p, alook v s.paths_fwd = some p → PathFrom db start_node p v
  soundB : ∀ v p, alook v s.paths_bwd = some p → PathFrom db end_node p v

theorem inv_initState (db : Db) (start_node end_node : Node) (cache0 : Cache)
    (hc : cacheConsistent db cache0) :
    SearchInv db start_node end_node (initState cache0 start_node end_node) := by
  have hsingF : ∀ (k v : Node) (p : Path), alook v [(k, ([] : Path))] = some p
      → v = k ∧ p = [] := by
    intro k v p h
    rw [alook_singleton] at h
    split at h
    · rename_i hkv
      cases h
      exact ⟨hkv.symm, rfl⟩
    · cases h
  refine
    { cache := hc
      startMem := by simp [initState, alook]
      endMem := by simp [initState, alook]
      queueSubF := ?_
      queueSubB := ?_
      nodupF := by simp [initState]
      nodupB := by simp [initState]
      levelsF := by simp [initState]
      levelsB := by simp [initState]
      nearF := ?_
      nearB := ?_
      doneF := ?_
      doneB := ?_
      soundF := ?_
      soundB := ?_ }
  · intro x hx
    simp only [initState, List.mem_singleton] at hx
    rw [hx]
    simp [initState, alook]
  · intro x hx
    simp only [initState, List.mem_singleton] at hx
    rw [hx]
    simp [initState, alook]
  · intro v p hp x hx
    obtain ⟨_, rfl⟩ := hsingF _ v p hp
    simp
  · intro v p hp x hx
    obtain ⟨_, rfl⟩ := hsingF _ v p hp
    simp
  · intro v p hp hnq _
    obtain ⟨rfl, rfl⟩ := hsingF _ v p hp
    exact absurd rfl (hnq (v, []) (List.mem_singleton.mpr rfl))
  · intro v p hp hnq _
    obtain ⟨rfl, rfl⟩ := hsingF _ v p hp
    exact absurd rfl (hnq (v, []) (List.mem_singleton.mpr rfl))
  · intro v p hp
    obtain ⟨rfl, rfl⟩ := hsingF _ v p hp
    exact PathFrom.nil v
  · intro v p hp
    obtain ⟨rfl, rfl⟩ := hsingF _ v p hp
    exact PathFrom.nil v

theorem inv_iterF (db : Db) (st en : Node) (s s' : SState)
    (inv : SearchInv db st en s)
    (hi : iterF (respOfDb db) s = .pruned s' ∨ iterF (respOfDb db) s = .proceed s') :
    SearchInv db st en s' := by
  rcases hi with hi | hi
  · obtain ⟨cur, path, qf, hq, hlen, rfl⟩ := iterF_pruned_elim _ s s' hi
    have hmemcons : ∀ x ∈ qf, x ∈ s.queue_fwd := by
      intro x hx
      rw [hq]
      exact List.mem_cons_of_mem _ hx
    refine
      { cache := inv.cache
        startMem := inv.startMem
        endMem := inv.endMem
        queueSubF := fun x hx => inv.queueSubF x (hmemcons x hx)
        queueSubB := inv.queueSubB
        nodupF := ?_
        nodupB := inv.nodupB
        levelsF := ?_
        levelsB := inv.levelsB
        nearF := fun v p hp x hx => inv.nearF v p hp x (hmemcons x hx)
        nearB := inv.nearB
        doneF := ?_
        doneB := inv.doneB
        soundF := inv.soundF
        soundB := inv.soundB }
    · have h := inv.nodupF
      rw [hq, List.map_cons, List.nodup_cons] at h
      exact h.2
    · have h := inv.levelsF
      rw [hq] at h
      exact (List.pairwise_cons.mp h).2
    · intro v p hp hnq hple
      by_cases hv : v = cur
      · subst hv
        have hcur : alook v s.paths_fwd = some path :=
          inv.queueSubF (v, path) (by rw [hq]; exact List.mem_cons_self _ _)
        have hpp : p = path := by
          have := hp
          rw [popF_pf] at this
          rw [this] at hcur
          exact (Option.some.injEq _ _).mp hcur
        rw [hpp] at hple
        omega
      · refine inv.doneF v p hp ?_ hple
        intro x hx
        rw [hq] at hx
        cases hx with
        | head => exact fun hcon => hv hcon.symm
        | tail _ hx' => exact hnq x hx'
  · rcases iterF_proceed_elim _ s s' hi with ⟨_, rfl⟩ | hcase
    · exact inv
    · obtain ⟨cur, path, qf, es, c', f, vis, q, hq, hlen, hge, hex, rfl⟩ := hcase
      obtain ⟨hes, hc'⟩ := get_edges_db db s.node_cache cur inv.cache _ _ _ hge
      have hes' : es = serve db cur := by
        injection hes with hes'
      subst hes'
      have hmemhead : (cur, path) ∈ s.queue_fwd := by
        rw [hq]
        exact List.mem_cons_self _ _
      have hmemcons : ∀ x ∈ qf, x ∈ s.queue_fwd := by
        intro x hx
        rw [hq]
        exact List.mem_cons_of_mem _ hx
      have hcur : alook cur s.paths_fwd = some path := inv.queueSubF (cur, path) hmemhead
      have hPF : PathFrom db st path cur := inv.soundF cur path hcur
      have hbound : ∀ v p, alook v s.paths_fwd = some p → p.length ≤ path.length + 1 :=
        fun v p hp => inv.nearF v p hp (cur, path) hmemhead
      have hlevels := inv.levelsF
      rw [hq] at hlevels
      have hhead : ∀ x ∈ qf, LevelRel (cur, path) x := (List.pairwise_cons.mp hlevels).1
      have htail : qf.Pairwise LevelRel := (List.pairwise_cons.mp hlevels).2
      obtain ⟨ext, hqeq, hviseq, hfacts, hnd⟩ := expand_ext _ _ _ _ _ _ _ hex
      have hmono := expand_mono _ _ _ _ _ _ _ hex
      have hvisnew := expand_vis_new _ _ _ _ _ _ _ hex
      refine
        { cache := hc'
          startMem := hmono st [] inv.startMem
          endMem := inv.endMem
          queueSubF := ?_
          queueSubB := inv.queueSubB
          nodupF := ?_
          nodupB := inv.nodupB
          levelsF := ?_
          levelsB := inv.levelsB
          nearF := ?_
          nearB := inv.nearB
          doneF := ?_
          doneB := inv.doneB
          soundF := ?_
          soundB := inv.soundB }
      · intro x hx
        refine expand_queue_match _ _ _ _ _ _ _ ?_ hex x hx
        exact fun y hy => inv.queueSubF y (hmemcons y hy)
      · simp only [setF_qf]
        rw [hqeq, List.map_append, List.nodup_append]
        refine ⟨?_, hnd, ?_⟩
        · have h := inv.nodupF
          rw [hq, List.map_cons, List.nodup_cons] at h
          exact h.2
        · intro a ha hb
          obtain ⟨x, hx, hx1⟩ := List.mem_map.mp ha
          obtain ⟨y, hy, hy1⟩ := List.mem_map.mp hb
          have h1 : alook a s.paths_fwd = some (Prod.snd x) := by
            rw [← hx1]
            exact inv.queueSubF x (hmemcons x hx)
          have h2 : alook a s.paths_fwd = none := by
            rw [← hy1]
            exact (hfacts y hy).1
          rw [h1] at h2
          cases h2
      · simp only [setF_qf]
        rw [hqeq, List.pairwise_append]
        refine ⟨htail, ?_, ?_⟩
        · refine List.pairwise_of_forall_mem_list ?_
          intro a ha b hb
          have h1 : (Prod.snd a).length = path.length + 1 := (hfacts a ha).2.1
          have h2 : (Prod.snd b).length = path.length + 1 := (hfacts b hb).2.1
          exact ⟨by omega, by omega⟩
        · intro a ha b hb
          have h3 : path.length ≤ (Prod.snd a).length := (hhead a ha).1
          have h4 : (Prod.snd a).length ≤ path.length + 1 := (hhead a ha).2
          have h2 : (Prod.snd b).length = path.length + 1 := (hfacts b hb).2.1
          exact ⟨by omega, by omega⟩
      · intro v p hp x hx
        simp only [setF_qf] at hx
        simp only [setF_pf] at hp
        rw [hqeq] at hx
        have hplen : p.length ≤ path.length + 1 := by
          rcases hvisnew v p hp with hold | ⟨e, he, rfl, rfl⟩
          · exact hbound v p hold
          · simp
        rcases List.mem_append.mp hx with hx' | hx'
        · have hxl : path.length ≤ (Prod.snd x).length := (hhead x hx').1
          omega
        · have hxl : (Prod.snd x).length = path.length + 1 := (hfacts x hx').2.1
          omega
      · intro v p hp hnq hple
        simp only [setF_pf] at hp
        simp only [setF_qf] at hnq
        by_cases hv : v = cur
        · subst hv
          have hvis : alook v vis = some path := hmono v path hcur
          have hpp : p = path := by
            rw [hp] at hvis
            exact (Option.some.injEq _ _).mp hvis
          subst hpp
          constructor
          · intro hmem
            obtain ⟨e, he, hne⟩ := List.mem_map.mp hmem
            have habs := expand_no_meet_absent _ _ _ _ _ _ _ hex e he
            rw [hne] at habs
            rw [inv.endMem] at habs
            cases habs
          · intro w hw
            obtain ⟨e, he, hne⟩ := List.mem_map.mp hw
            obtain ⟨pw, hpw1, hpw2⟩ := expand_covers _ _ _ _ _ _ _ hbound hex e he
            rw [hne] at hpw1
            exact ⟨pw, hpw1, hpw2⟩
        · have hp2 : alook v (s.paths_fwd ++ ext) = some p := by
            rw [← hviseq]
            exact hp
          rw [alook_append] at hp2
          cases hold : alook v s.paths_fwd with
          | some p0 =>
            rw [hold] at hp2
            have hp0 : p0 = p := (Option.some.injEq _ _).mp hp2
            subst hp0
            have hdone := inv.doneF v p0 hold ?_ hple
            · refine ⟨hdone.1, ?_⟩
              intro w hw
              obtain ⟨pw, hpw1, hpw2⟩ := hdone.2 w hw
              exact ⟨pw, hmono w pw hpw1, hpw2⟩
            · intro x hx
              rw [hq] at hx
              cases hx with
              | head => exact fun hcon => hv hcon.symm
              | tail _ hx' =>
                refine hnq x ?_
                rw [hqeq]
                exact List.mem_append_left _ hx'
          | none =>
            rw [hold] at hp2
            have hkey := mem_keys_of_alook v p ext hp2
            obtain ⟨x, hx, hx1⟩ := List.mem_map.mp hkey
            refine absurd hx1 (hnq x ?_)
            rw [hqeq]
            exact List.mem_append_right _ hx
      · intro v p hp
        simp only [setF_pf] at hp
        rcases hvisnew v p hp with hold | ⟨e, he, rfl, rfl⟩
        · exact inv.soundF v p hold
        · exact PathFrom.snoc hPF he

theorem inv_iterB (db : Db) (st en : Node) (s s' : SState)
    (inv : SearchInv db st en s)
    (hi : iterB (respOfDb db) s = .pruned s' ∨ iterB (respOfDb db) s = .proceed s') :
    SearchInv db st en s' := by
  rcases hi with hi | hi
  · obtain ⟨cur, path, qb, hq, hlen, rfl⟩ := iterB_pruned_elim _ s s' hi
    have hmemcons : ∀ x ∈ qb, x ∈ s.queue_bwd := by
      intro x hx
      rw [hq]
      exact List.mem_cons_of_mem _ hx
    refine
      { cache := inv.cache
        startMem := inv.startMem
        endMem := inv.endMem
        queueSubF := inv.queueSubF
        queueSubB := fun x hx => inv.queueSubB x (hmemcons x hx)
        nodupF := inv.nodupF
        nodupB := ?_
        levelsF := inv.levelsF
        levelsB := ?_
        nearF := inv.nearF
        nearB := fun v p hp x hx => inv.nearB v p hp x (hmemcons x hx)
        doneF := inv.doneF
        doneB := ?_
        soundF := inv.soundF
        soundB := inv.soundB }
    · have h := inv.nodupB
      rw [hq, List.map_cons, List.nodup_cons] at h
      exact h.2
    · have h := inv.levelsB
      rw [hq] at h
      exact (List.pairwise_cons.mp h).2
    · intro v p hp hnq hple
      by_cases hv : v = cur
      · subst hv
        have hcur : alook v s.paths_bwd = some path :=
          inv.queueSubB (v, path) (by rw [hq]; exact List.mem_cons_self _ _)
        have hpp : p = path := by
          have hp' := hp
          rw [popB_pb] at hp'
          rw [hp'] at hcur
          exact (Option.some.injEq _ _).mp hcur
        rw [hpp] at hple
        omega
      · refine inv.doneB v p hp ?_ hple
        intro x hx
        rw [hq] at hx
        cases hx with
        | head => exact fun hcon => hv hcon.symm
        | tail _ hx' => exact hnq x hx'
  · rcases iterB_proceed_elim _ s s' hi with ⟨_, rfl⟩ | hcase
    · exact inv
    · obtain ⟨cur, path, qb, es, c', f, vis, q, hq, hlen, hge, hex, rfl⟩ := hcase
      obtain ⟨hes, hc'⟩ := get_edges_db db s.node_cache cur inv.cache _ _ _ hge
      have hes' : es = serve db cur := by
        injection hes with hes'
      subst hes'
      have hmemhead : (cur, path) ∈ s.queue_bwd := by
        rw [hq]
        exact List.mem_cons_self _ _
      have hmemcons : ∀ x ∈ qb, x ∈ s.queue_bwd := by
        intro x hx
        rw [hq]
        exact List.mem_cons_of_mem _ hx
      have hcur : alook cur s.paths_bwd = some path := inv.queueSubB (cur, path) hmemhead
      have hPF : PathFrom db en path cur := inv.soundB cur path hcur
      have hbound : ∀ v p, alook v s.paths_bwd = some p → p.length ≤ path.length + 1 :=
        fun v p hp => inv.nearB v p hp (cur, path) hmemhead
      have hlevels := inv.levelsB
      rw [hq] at hlevels
      have hhead : ∀ x ∈ qb, LevelRel (cur, path) x := (List.pairwise_cons.mp hlevels).1
      have htail : qb.Pairwise LevelRel := (List.pairwise_cons.mp hlevels).2
      obtain ⟨ext, hqeq, hviseq, hfacts, hnd⟩ := expand_ext _ _ _ _ _ _ _ hex
      have hmono := expand_mono _ _ _ _ _ _ _ hex
      have hvisnew := expand_vis_new _ _ _ _ _ _ _ hex
      refine
        { cache := hc'
          startMem := inv.startMem
          endMem := hmono en [] inv.endMem
          queueSubF := inv.queueSubF
          queueSubB := ?_
          nodupF := inv.nodupF
          nodupB := ?_
          levelsF := inv.levelsF
          levelsB := ?_
          nearF := inv.nearF
          nearB := ?_
          doneF := inv.doneF
          doneB := ?_
          soundF := inv.soundF
          soundB := ?_ }
      · intro x hx
        refine expand_queue_match _ _ _ _ _ _ _ ?_ hex x hx
        exact fun y hy => inv.queueSubB y (hmemcons y hy)
      · simp only [setB_qb]
        rw [hqeq, List.map_append, List.nodup_append]
        refine ⟨?_, hnd, ?_⟩
        · have h := inv.nodupB
          rw [hq, List.map_cons, List.nodup_cons] at h
          exact h.2
        · intro a ha hb
          obtain ⟨x, hx, hx1⟩ := List.mem_map.mp ha
          obtain ⟨y, hy, hy1⟩ := List.mem_map.mp hb
          have h1 : alook a s.paths_bwd = some (Prod.snd x) := by
            rw [← hx1]
            exact inv.queueSubB x (hmemcons x hx)
          have h2 : alook a s.paths_bwd = none := by
            rw [← hy1]
            exact (hfacts y hy).1
          rw [h1] at h2
          cases h2
      · simp only [setB_qb]
        rw [hqeq, List.pairwise_append]
        refine ⟨htail, ?_, ?_⟩
        · refine List.pairwise_of_forall_mem_list ?_
          intro a ha b hb
          have h1 : (Prod.snd a).length = path.length + 1 := (hfacts a ha).2.1
          have h2 : (Prod.snd b).length = path.length + 1 := (hfacts b hb).2.1
          exact ⟨by omega, by omega⟩
        · intro a ha b hb
          have h3 : path.length ≤ (Prod.snd a).length := (hhead a ha).1
          have h4 : (Prod.snd a).length ≤ path.length + 1 := (hhead a ha).2
          have h2 : (Prod.snd b).length = path.length + 1 := (hfacts b hb).2.1
          exact ⟨by omega, by omega⟩
      · intro v p hp x hx
        simp only [setB_qb] at hx
        simp only [setB_pb] at hp
        rw [hqeq] at hx
        have hplen : p.length ≤ path.length + 1 := by
          rcases hvisnew v p hp with hold | ⟨e, he, rfl, rfl⟩
          · exact hbound v p hold
          · simp
        rcases List.mem_append.mp hx with hx' | hx'
        · have hxl : path.length ≤ (Prod.snd x).length := (hhead x hx').1
          omega
        · have hxl : (Prod.snd x).length = path.length + 1 := (hfacts x hx').2.1
          omega
      · intro v p hp hnq hple
        simp only [setB_pb] at hp
        simp only [setB_qb] at hnq
        by_cases hv : v = cur
        · subst hv
          have hvis : alook v vis = some path := hmono v path hcur
          have hpp : p = path := by
            rw [hp] at hvis
            exact (Option.some.injEq _ _).mp hvis
          subst hpp
          constructor
          · intro hmem
            obtain ⟨e, he, hne⟩ := List.mem_map.mp hmem
            have habs := expand_no_meet_absent _ _ _ _ _ _ _ hex e he
            rw [hne] at habs
            rw [inv.startMem] at habs
            cases habs
          · intro w hw
            obtain ⟨e, he, hne⟩ := List.mem_map.mp hw
            obtain ⟨pw, hpw1, hpw2⟩ := expand_covers _ _ _ _ _ _ _ hbound hex e he
            rw [hne] at hpw1
            exact ⟨pw, hpw1, hpw2⟩
        · have hp2 : alook v (s.paths_bwd ++ ext) = some p := by
            rw [← hviseq]
            exact hp
          rw [alook_append] at hp2
          cases hold : alook v s.paths_bwd with
          | some p0 =>
            rw [hold] at hp2
            have hp0 : p0 = p := (Option.some.injEq _ _).mp hp2
            subst hp0
            have hdone := inv.doneB v p0 hold ?_ hple
            · refine ⟨hdone.1, ?_⟩
              intro w hw
              obtain ⟨pw, hpw1, hpw2⟩ := hdone.2 w hw
              exact ⟨pw, hmono w pw hpw1, hpw2⟩
            · intro x hx
              rw [hq] at hx
              cases hx with
              | head => exact fun hcon => hv hcon.symm
              | tail _ hx' =>
                refine hnq x ?_
                rw [hqeq]
                exact List.mem_append_left _ hx'
          | none =>
            rw [hold] at hp2
            have hkey := mem_keys_of_alook v p ext hp2
            obtain ⟨x, hx, hx1⟩ := List.mem_map.mp hkey
            refine absurd hx1 (hnq x ?_)
            rw [hqeq]
            exact List.mem_append_right _ hx
      · intro v p hp
        simp only [setB_pb] at hp
        rcases hvisnew v p hp with hold | ⟨e, he, rfl, rfl⟩
        · exact inv.soundB v p hold
        · exact PathFrom.snoc hPF he

theorem inv_iter (db : Db) (st en : Node) (s s' : SState)
    (inv : SearchInv db st en s)
    (hi : iter (respOfDb db) s = .proceed s') : SearchInv db st en s' := by
  rcases iter_proceed_elim _ s s' hi with hF | ⟨s1, hF, hB⟩
  · exact inv_iterF db st en s s' inv (Or.inl hF)
  · exact inv_iterB db st en s1 s' (inv_iterF db st en s s1 inv (Or.inr hF)) hB

theorem iter_found_sound (db : Db) (st en : Node) (s s' : SState) (pf pb : Path)
    (inv : SearchInv db st en s)
    (hi : iter (respOfDb db) s = .found pf pb s') :
    ∃ meet, PathFrom db st pf meet ∧ PathFrom db en pb meet := by
  rcases iter_found_elim _ s s' pf pb hi with hF | ⟨s1, hF, hB⟩
  · obtain ⟨cur, path, qf, es, c', f, hq, hlen, hge, hex, _⟩ :=
      iterF_found_elim _ s s' pf pb hF
    obtain ⟨hes, _⟩ := get_edges_db db s.node_cache cur inv.cache _ _ _ hge
    have hes' : es = serve db cur := by
      injection hes with h
    subst hes'
    obtain ⟨e, he, rfl, hlook⟩ := expand_met _ _ _ _ _ _ _ hex
    have hcur : alook cur s.paths_fwd = some path :=
      inv.queueSubF (cur, path) (by rw [hq]; exact List.mem_cons_self _ _)
    refine ⟨e.neighbor, ?_, ?_⟩
    · exact PathFrom.snoc (inv.soundF cur path hcur) he
    · exact inv.soundB e.neighbor pb hlook
  · have inv1 : SearchInv db st en s1 := inv_iterF db st en s s1 inv (Or.inr hF)
    obtain ⟨cur, path, qb, es, c', f, hq, hlen, hge, hex, _⟩ :=
      iterB_found_elim _ s1 s' pf pb hB
    obtain ⟨hes, _⟩ := get_edges_db db s1.node_cache cur inv1.cache _ _ _ hge
    have hes' : es = serve db cur := by
      injection hes with h
    subst hes'
    obtain ⟨e, he, rfl, hlook⟩ := expand_met _ _ _ _ _ _ _ hex
    have hcur : alook cur s1.paths_bwd = some path :=
      inv1.queueSubB (cur, path) (by rw [hq]; exact List.mem_cons_self _ _)
    refine ⟨e.neighbor, ?_, ?_⟩
    · exact inv1.soundF e.neighbor pf hlook
    · exact PathFrom.snoc (inv1.soundB cur path hcur) he

/-! ## Termination measure -/

theorem length_filter_mono {α : Type} (l : List α) (p q : α → Bool)
    (h : ∀ a ∈ l, p a = true → q a = true) :
    (l.filter p).length ≤ (l.filter q).length := by
  induction l with
  | nil => simp
  | cons a l ih =>
    have ih' := ih (fun b hb => h b (List.mem_cons_of_mem a hb))
    by_cases hp : p a = true
    · rw [List.filter_cons, if_pos hp, List.filter_cons, if_pos (h a (List.mem_cons_self a l) hp)]
      simpa using ih'
    · rw [List.filter_cons, if_neg hp, List.filter_cons]
      split
      · exact Nat.le_succ_of_le ih'
      · exact ih'

theorem countAbsent_mono (u : List Node) (vis ext : List (Node × Path)) :
    countAbsent u (vis ++ ext) ≤ countAbsent u vis := by
  refine length_filter_mono u _ _ ?_
  intro a _ hp
  rw [Option.isNone_iff_eq_none] at hp ⊢
  rw [alook_append] at hp
  cases hv : alook a vis with
  | none => rfl
  | some v => rw [hv] at hp; cases hp

theorem countAbsent_insert (u : List Node) (vis : List (Node × Path)) (k : Node)
    (pv : Path) (hk : k ∈ u) (habs : alook k vis = none) :
    countAbsent u (vis ++ [(k, pv)]) + 1 ≤ countAbsent u vis := by
  induction u with
  | nil => cases hk
  | cons a u' ih =>
    unfold countAbsent
    rw [List.filter_cons, List.filter_cons]
    by_cases hak : a = k
    · subst hak
      have hnew : (alook a (vis ++ [(a, pv)])).isNone = false := by
        rw [alook_append, habs]
        simp [alook_singleton]
      have hold : (alook a vis).isNone = true := by
        rw [habs]; rfl
      rw [if_neg (by rw [hnew]; simp), if_pos hold]
      simp only [List.length_cons]
      have hmono2 := countAbsent_mono u' vis [(a, pv)]
      unfold countAbsent at hmono2
      omega
    · have heq : (alook a (vis ++ [(k, pv)])).isNone = (alook a vis).isNone := by
        rw [alook_append]
        cases hv : alook a vis with
        | some v => rfl
        | none =>
          rw [alook_singleton, if_neg (fun hcon => hak hcon.symm)]
      rw [heq]
      have hk' : k ∈ u' := by
        cases hk with
        | head => exact absurd rfl hak
        | tail _ h => exact h
      have := ih hk'
      unfold countAbsent at this
      split
      · simp only [List.length_cons]
        omega
      · omega

theorem countAbsent_ext (u : List Node) (vis ext : List (Node × Path))
    (hkeys : ∀ x ∈ ext, alook (Prod.fst x) vis = none ∧ Prod.fst x ∈ u)
    (hnd : (ext.map Prod.fst).Nodup) :
    countAbsent u (vis ++ ext) + ext.length ≤ countAbsent u vis := by
  induction ext generalizing vis with
  | nil => simp
  | cons x ext ih =>
    obtain ⟨habs, hmem⟩ := hkeys x (List.mem_cons_self _ _)
    rw [List.map_cons, List.nodup_cons] at hnd
    have h1 : countAbsent u (vis ++ [x]) + 1 ≤ countAbsent u vis :=
      countAbsent_insert u vis (Prod.fst x) (Prod.snd x) hmem habs
    have hkeys' : ∀ y ∈ ext, alook (Prod.fst y) (vis ++ [x]) = none ∧ Prod.fst y ∈ u := by
      intro y hy
      obtain ⟨hy1, hy2⟩ := hkeys y (List.mem_cons_of_mem _ hy)
      refine ⟨?_, hy2⟩
      rw [alook_append, hy1, alook_singleton]
      rw [if_neg]
      intro hcon
      exact hnd.1 (hcon ▸ List.mem_map.mpr ⟨y, hy, rfl⟩)
    have h2 := ih (vis ++ [x]) hkeys' hnd.2
    have hassoc : vis ++ x :: ext = (vis ++ [x]) ++ ext := by
      rw [List.append_assoc]
      rfl
    rw [hassoc, List.length_cons]
    omega

theorem meas_iterF (db : Db) (st en : Node) (s s' : SState)
    (inv : SearchInv db st en s) (hne : s.queue_fwd ≠ [])
    (hi : iterF (respOfDb db) s = .pruned s' ∨ iterF (respOfDb db) s = .proceed s') :
    meas (universeOf db st en) s' < meas (universeOf db st en) s := by
  rcases hi with hi | hi
  · obtain ⟨cur, path, qf, hq, _, rfl⟩ := iterF_pruned_elim _ s s' hi
    unfold meas
    simp only [popF_qf, popF_qb, popF_pf, popF_pb]
    rw [hq]
    simp only [List.length_cons]
    omega
  · rcases iterF_proceed_elim _ s s' hi with ⟨hqe, rfl⟩ | hcase
    · exact absurd hqe hne
    · obtain ⟨cur, path, qf, es, c', f, vis, q, hq, hlen, hge, hex, rfl⟩ := hcase
      obtain ⟨hes, _⟩ := get_edges_db db s.node_cache cur inv.cache _ _ _ hge
      have hes' : es = serve db cur := by
        injection hes with h
      subst hes'
      obtain ⟨ext, hqeq, hviseq, hfacts, hnd⟩ := expand_ext _ _ _ _ _ _ _ hex
      have hkeys : ∀ x ∈ ext, alook (Prod.fst x) s.paths_fwd = none
          ∧ Prod.fst x ∈ universeOf db st en := by
        intro x hx
        obtain ⟨h1, _, _, e, he, h4, _⟩ := hfacts x hx
        refine ⟨h1, ?_⟩
        rw [h4]
        unfold universeOf
        exact List.mem_cons_of_mem _
          (List.mem_cons_of_mem _ (serve_neighbor_mem db cur e he))
      have hca := countAbsent_ext (universeOf db st en) s.paths_fwd ext hkeys hnd
      unfold meas
      simp only [setF_qf, setF_qb, setF_pf, setF_pb, fetched_qf, fetched_qb,
        fetched_pf, fetched_pb, popF_qf, popF_qb, popF_pf, popF_pb]
      rw [hqeq, hviseq, hq]
      simp only [List.length_append, List.length_cons]
      omega

theorem meas_iterB (db : Db) (st en : Node) (s s' : SState)
    (inv : SearchInv db st en s) (hne : s.queue_bwd ≠ [])
    (hi : iterB (respOfDb db) s = .pruned s' ∨ iterB (respOfDb db) s = .proceed s') :
    meas (universeOf db st en) s' < meas (universeOf db st en) s := by
  rcases hi with hi | hi
  · obtain ⟨cur, path, qb, hq, _, rfl⟩ := iterB_pruned_elim _ s s' hi
    unfold meas
    simp only [popB_qf, popB_qb, popB_pf, popB_pb]
    rw [hq]
    simp only [List.length_cons]
    omega
  · rcases iterB_proceed_elim _ s s' hi with ⟨hqe, rfl⟩ | hcase
    · exact absurd hqe hne
    · obtain ⟨cur, path, qb, es, c', f, vis, q, hq, hlen, hge, hex, rfl⟩ := hcase
      obtain ⟨hes, _⟩ := get_edges_db db s.node_cache cur inv.cache _ _ _ hge
      have hes' : es = serve db cur := by
        injection hes with h
      subst hes'
      obtain ⟨ext, hqeq, hviseq, hfacts, hnd⟩ := expand_ext _ _ _ _ _ _ _ hex
      have hkeys : ∀ x ∈ ext, alook (Prod.fst x) s.paths_bwd = none
          ∧ Prod.fst x ∈ universeOf db st en := by
        intro x hx
        obtain ⟨h1, _, _, e, he, h4, _⟩ := hfacts x hx
        refine ⟨h1, ?_⟩
        rw [h4]
        unfold universeOf
        exact List.mem_cons_of_mem _
          (List.mem_cons_of_mem _ (serve_neighbor_mem db cur e he))
      have hca := countAbsent_ext (universeOf db st en) s.paths_bwd ext hkeys hnd
      unfold meas
      simp only [setB_qf, setB_qb, setB_pf, setB_pb, fetched_qf, fetched_qb,
        fetched_pf, fetched_pb, popB_qf, popB_qb, popB_pf, popB_pb]
      rw [hqeq, hviseq, hq]
      simp only [List.length_append, List.length_cons]
      omega

theorem meas_iter (db : Db) (st en : Node) (s s' : SState)
    (inv : SearchInv db st en s)
    (hneF : s.queue_fwd ≠ []) (hneB : s.queue_bwd ≠ [])
    (hi : iter (respOfDb db) s = .proceed s') :
    meas (universeOf db st en) s' < meas (universeOf db st en) s := by
  rcases iter_proceed_elim _ s s' hi with hF | ⟨s1, hF, hB⟩
  · exact meas_iterF db st en s s' inv hneF (Or.inl hF)
  · have h1 := meas_iterF db st en s s1 inv hneF (Or.inr hF)
    have inv1 := inv_iterF db st en s s1 inv (Or.inr hF)
    have hne1 : s1.queue_bwd ≠ [] := by
      rw [(iterF_bwd_eq _ s s1 (Or.inr hF)).2]
      exact hneB
    have h2 := meas_iterB db st en s1 s' inv1 hne1 hB
    omega

/-! ## The frontier-exhaustion contradictions -/

theorem contraF (db : Db) (st en : Node) (sX : SState)
    (inv : SearchInv db st en sX) (hqe : sX.queue_fwd = []) :
    ∀ m u p, Walk db u en (m + 1) → alook u sX.paths_fwd = some p →
      p.length + m + 1 ≤ 10 → False := by
  intro m
  induction m with
  | zero =>
    intro u p hw hp hlen
    obtain ⟨w, hwn, hw0⟩ := walk_succ_inv db u en 0 hw
    have hwe : w = en := walk_zero db w en hw0
    subst hwe
    have hdone := inv.doneF u p hp (by rw [hqe]; intro x hx; cases hx) (by omega)
    exact hdone.1 hwn
  | succ m ih =>
    intro u p hw hp hlen
    obtain ⟨w, hwn, hw'⟩ := walk_succ_inv db u en (m + 1) hw
    have hdone := inv.doneF u p hp (by rw [hqe]; intro x hx; cases hx) (by omega)
    obtain ⟨pw, hpw, hpwlen⟩ := hdone.2 w hwn
    exact ih w pw hw' hpw (by omega)

theorem contraB (db : Db) (st en : Node) (sX : SState)
    (inv : SearchInv db st en sX) (hqe : sX.queue_bwd = []) :
    ∀ m u p, Walk db u st (m + 1) → alook u sX.paths_bwd = some p →
      p.length + m + 1 ≤ 10 → False := by
  intro m
  induction m with
  | zero =>
    intro u p hw hp hlen
    obtain ⟨w, hwn, hw0⟩ := walk_succ_inv db u st 0 hw
    have hwe : w = st := walk_zero db w st hw0
    subst hwe
    have hdone := inv.doneB u p hp (by rw [hqe]; intro x hx; cases hx) (by omega)
    exact hdone.1 hwn
  | succ m ih =>
    intro u p hw hp hlen
    obtain ⟨w, hwn, hw'⟩ := walk_succ_inv db u st (m + 1) hw
    have hdone := inv.doneB u p hp (by rw [hqe]; intro x hx; cases hx) (by omega)
    obtain ⟨pw, hpw, hpwlen⟩ := hdone.2 w hwn
    exact ih w pw hw' hpw (by omega)

/-! ## The loop reaches its natural outcome -/

theorem loop_found (db : Db) (st en : Node) (k : Nat) (fuel : Nat) (s : SState)
    (inv : SearchInv db st en s)
    (hmeas : meas (universeOf db st en) s < fuel)
    (hw : Walk db st en k) (hk1 : 1 ≤ k) (hk : k ≤ 10) :
    isFound (loop (respOfDb db) fuel s).1 = true := by
  induction fuel generalizing s with
  | zero => omega
  | succ fuel ih =>
    unfold loop
    split
    · rename_i hguard
      rcases hguard with hqe | hqe
      · obtain ⟨m, rfl⟩ : ∃ m, k = m + 1 := ⟨k - 1, by omega⟩
        exact absurd inv.startMem
          (fun hsm => contraF db st en s inv hqe m st [] hw hsm (by simp; omega))
      · obtain ⟨m, rfl⟩ : ∃ m, k = m + 1 := ⟨k - 1, by omega⟩
        have hw' : Walk db en st (m + 1) := walk_symm db st en _ hw
        exact absurd inv.endMem
          (fun hem => contraB db st en s inv hqe m en [] hw' hem (by simp; omega))
    · rename_i hguard
      cases hit : iter (respOfDb db) s with
      | found pf pb s' => rfl
      | failed e s' =>
        exact absurd hit (iter_not_failed (respOfDb db) (wf_respOfDb db) s e s')
      | pruned s' => exact absurd hit (iter_not_pruned _ s s')
      | proceed s' =>
        have hneF : s.queue_fwd ≠ [] := fun hcon => hguard (Or.inl hcon)
        have hneB : s.queue_bwd ≠ [] := fun hcon => hguard (Or.inr hcon)
        have inv' := inv_iter db st en s s' inv hit
        have hm := meas_iter db st en s s' inv hneF hneB hit
        exact ih s' inv' (by omega)

theorem loop_notFound (db : Db) (st en : Node) (fuel : Nat) (s : SState)
    (inv : SearchInv db st en s)
    (hmeas : meas (universeOf db st en) s < fuel)
    (hnw : ∀ m, ¬ Walk db st en m) :
    (loop (respOfDb db) fuel s).1 = .notFound := by
  induction fuel generalizing s with
  | zero => omega
  | succ fuel ih =>
    unfold loop
    split
    · rfl
    · rename_i hguard
      cases hit : iter (respOfDb db) s with
      | found pf pb s' =>
        obtain ⟨meet, h1, h2⟩ := iter_found_sound db st en s s' pf pb inv hit
        have w1 : Walk db st meet pf.length := pathFrom_walk db st pf meet h1
        have w2 : Walk db meet en pb.length :=
          walk_symm db en meet pb.length (pathFrom_walk db en pb meet h2)
        obtain ⟨n, hn⟩ := walk_comp db st meet en _ _ w1 w2
        exact absurd hn (hnw n)
      | failed e s' =>
        exact absurd hit (iter_not_failed (respOfDb db) (wf_respOfDb db) s e s')
      | pruned s' => exact absurd hit (iter_not_pruned _ s s')
      | proceed s' =>
        have hneF : s.queue_fwd ≠ [] := fun hcon => hguard (Or.inl hcon)
        have hneB : s.queue_bwd ≠ [] := fun hcon => hguard (Or.inr hcon)
        have inv' := inv_iter db st en s s' inv hit
        have hm := meas_iter db st en s s' inv hneF hneB hit
        exact ih s' inv' (by omega)

theorem meas_init (db : Db) (st en : Node) (cache0 : Cache) :
    meas (universeOf db st en) (initState cache0 st en) < fuelBound db := by
  unfold meas fuelBound
  have h1 : countAbsent (universeOf db st en) (initState cache0 st en).paths_fwd
      ≤ (universeOf db st en).length := List.length_filter_le _ _
  have h2 : countAbsent (universeOf db st en) (initState cache0 st en).paths_bwd
      ≤ (universeOf db st en).length := List.length_filter_le _ _
  have h3 : (universeOf db st en).length = 2 + 2 * db.length := by
    unfold universeOf
    simp [dbNodes_length]
    omega
  simp only [initState, List.length_cons, List.length_nil] at h1 h2 ⊢
  omega

/-! ## Claim C8 -/

/-- C8: over any finite remote graph (a database of edge descriptors, served
to `get_edges` per the remote query contract) and any cache consistent with
it, `find_path` run with sufficient fuel terminates in its natural outcome:
if a path of at most 10 edges exists between distinct `start` and `end`
along the traversed neighbor relation, the engine reports a found path; if
start and end are in disconnected components (no connecting walk of any
length), it reports path-not-found after frontier exhaustion. -/
theorem c8_termination (db : Db) (cache0 : Cache) (fuel : Nat)
    (start_node end_node : Node)
    (hc : cacheConsistent db cache0) (hfuel : fuelBound db ≤ fuel) :
    ((∃ k, k ≤ 10 ∧ Walk db start_node end_node k) ∧ start_node ≠ end_node →
      isFound (find_path (respOfDb db) cache0 fuel start_node end_node).outcome
        = true)
    ∧ ((∀ m, ¬ Walk db start_node end_node m) →
      (find_path (respOfDb db) cache0 fuel start_node end_node).outcome
        = .notFound) := by
  have hinv := inv_initState db start_node end_node cache0 hc
  have hmeas : meas (universeOf db start_node end_node)
      (initState cache0 start_node end_node) < fuel := by
    have := meas_init db start_node end_node cache0
    omega
  constructor
  · rintro ⟨⟨k, hk, hw⟩, hne⟩
    have hk1 : 1 ≤ k := by
      rcases Nat.eq_zero_or_pos k with rfl | h
      · exact absurd (walk_zero db _ _ hw) hne
      · exact h
    unfold find_path
    rw [if_neg hne]
    exact loop_found db start_node end_node k fuel _ hinv hmeas hw hk1 hk
  · intro hnw
    have hne : start_node ≠ end_node := by
      intro hcon
      exact hnw 0 (hcon ▸ Walk.nil start_node)
    unfold find_path
    rw [if_neg hne]
    exact loop_notFound db start_node end_node fuel _ hinv hmeas hnw

theorem no_walk_empty_db (u v : Node) (m : Nat) (h : Walk [] u v m) : u = v := by
  induction h with
  | nil => rfl
  | cons h1 _ _ =>
    simp [nbrs, serve] at h1

/-- Witness for `c8_termination`: a one-edge database where the path is
found, and the empty database where distinct nodes are disconnected and the
engine reports not-found. -/
theorem c8_termination_witness :
    isFound (find_path (respOfDb [⟨"IsA", "/c/en/x", "/c/en/y"⟩]) [] 100
        "/c/en/x" "/c/en/y").outcome = true
    ∧ (find_path (respOfDb ([] : Db)) [] 100 "/c/en/x" "/c/en/z").outcome
        = .notFound := by
  constructor
  · refine (c8_termination [⟨"IsA", "/c/en/x", "/c/en/y"⟩] [] 100 "/c/en/x" "/c/en/y"
      ?_ (by decide)).1 ⟨⟨1, by decide, ?_⟩, by decide⟩
    · intro n es h
      simp [alook] at h
    · exact Walk.cons (by decide) (Walk.nil "/c/en/y")
  · refine (c8_termination [] [] 100 "/c/en/x" "/c/en/z" ?_ (by decide)).2 ?_
    · intro n es h
      simp [alook] at h
    · intro m hw
      exact absurd (no_walk_empty_db _ _ m hw) (by decide)

end ConceptNet
